import Mathlib

/-!
Verification of the PPM language model core of the PredictiveScanningDemo
repository (src/ppm_language_model.js).

The JavaScript pointer graph of trie nodes is embedded as an arena:
a list of node records addressed by stable natural-number indices, with the
root at index 0.  Every pointer field (`child_`, `next_`, `backoff_`) becomes
an `Option Nat` index.  Pointer loops of the source become fueled structural
recursions; for well-formed (reachable) states we prove the fuel used at each
call site suffices, so the fueled functions compute the walks of the source.
Floating point arithmetic of `getProbs` is embedded over `ℚ`; assertions of
the source (`assert(...)`) become `Except String` errors.
-/

namespace PPMDemo

/-- Vocabulary of the source (class `Vocabulary`): `symbols_` starts as the
empty array; `addSymbol` pushes an unknown symbol and returns its index
(`length - 1` after the push), and returns `indexOf` for a known symbol.
The source field `rootSymbol` is the constant `0`. -/
structure Vocabulary where
  symbols : List String
deriving Repr, DecidableEq

def Vocabulary.empty : Vocabulary := ⟨[]⟩

def Vocabulary.size (v : Vocabulary) : Nat := v.symbols.length

/-- Translation of `Vocabulary.addSymbol`, returning the updated vocabulary
together with the returned index. -/
def Vocabulary.addSymbol (v : Vocabulary) (s : String) : Vocabulary × Nat :=
  if s ∈ v.symbols then
    (v, (v.symbols.indexOf s))
  else
    (⟨v.symbols ++ [s]⟩, v.symbols.length)

/-- Translation of `Vocabulary.getSymbolIndex` (Array.prototype.indexOf:
`-1` when absent). -/
def Vocabulary.getSymbolIndex (v : Vocabulary) (s : String) : Int :=
  if s ∈ v.symbols then (v.symbols.indexOf s : Int) else -1

/-- Kneser-Ney-like smoothing constant `knAlpha = 0.49` of the source. -/
def knAlpha : ℚ := 49 / 100

/-- Kneser-Ney-like smoothing constant `knBeta = 0.77` of the source. -/
def knBeta : ℚ := 77 / 100

/-- Sanity-check epsilon `1E-10` of the source. -/
def epsilon : ℚ := 1 / 10000000000

/-- Trie node (class `Node`): leftmost child, next sibling and backoff links
are arena indices; `count_` starts at 1 and `symbol_` at the root symbol 0. -/
structure Node where
  child : Option Nat
  next : Option Nat
  backoff : Option Nat
  count : Nat
  symbol : Nat
deriving Repr, DecidableEq

def Node.initial : Node := ⟨none, none, none, 1, 0⟩

/-- PPM model state (class `PPMLanguageModel`): the vocabulary size, the
maximum order, the node arena (root at index 0), the `numNodes_` counter and
the `useExclusion_` flag. -/
structure PPM where
  vocabSize : Nat
  maxOrder : Nat
  nodes : List Node
  numNodes : Nat
  useExclusion : Bool
deriving Repr, DecidableEq

/-- Context handle (class `Context`): current head node and order.  The order
is an integer because the source decrements it below zero transiently. -/
structure Context where
  head : Option Nat
  order : Int
deriving Repr, DecidableEq

/-- Model state right after the `PPMLanguageModel` constructor: a fresh root
node, one node total, exclusion off. -/
def PPM.init (vocabSize maxOrder : Nat) : PPM :=
  { vocabSize := vocabSize, maxOrder := maxOrder, nodes := [Node.initial],
    numNodes := 1, useExclusion := false }

/-- Constructor of `PPMLanguageModel` including its assertion
`vocab.size() > 1`. -/
def PPM.new (vocabSize maxOrder : Nat) : Except String PPM :=
  if 1 < vocabSize then .ok (PPM.init vocabSize maxOrder)
  else .error "Expecting at least two symbols in the vocabulary"

/-- Translation of `createContext()`: a copy of the root context
`(root, 0)`. -/
def createContext (_m : PPM) : Context := ⟨some 0, 0⟩

/-- Translation of `cloneContext(context)`. -/
def cloneContext (ctx : Context) : Context := ⟨ctx.head, ctx.order⟩

/-- Inner loop of `Node.findChildWithSymbol`: walk the sibling chain
starting at `cur` looking for `symbol`. -/
def findChildFrom (nodes : List Node) (symbol : Nat) :
    Option Nat → Nat → Option Nat
  | _, 0 => none
  | none, _ + 1 => none
  | some i, fuel + 1 =>
    match nodes[i]? with
    | none => none
    | some nd =>
      if nd.symbol = symbol then some i
      else findChildFrom nodes symbol nd.next fuel

/-- Translation of `Node.findChildWithSymbol(symbol)` for the node at
index `i`. -/
def findChildWithSymbol (nodes : List Node) (i : Nat) (symbol : Nat) :
    Option Nat :=
  match nodes[i]? with
  | none => none
  | some nd => findChildFrom nodes symbol nd.child nodes.length

/-- Exclusion-mask lookup: in the source a symbol is processed when
`!exclusionMask || !exclusionMask[symbol]`. -/
def maskFree (mask : Option (List Bool)) (s : Nat) : Bool :=
  match mask with
  | none => true
  | some l => !(l[s]?.getD false)

/-- Exclusion-mask update `exclusionMask[symbol] = true` (no-op when the
mask is absent). -/
def maskSet (mask : Option (List Bool)) (s : Nat) : Option (List Bool) :=
  match mask with
  | none => none
  | some l => some (l.set s true)

/-- Loop of `Node.totalChildrenCounts(exclusionMask)`: sum the counts of the
children on the sibling chain whose symbols are not excluded. -/
def totalChildrenFrom (nodes : List Node) (mask : Option (List Bool)) :
    Option Nat → Nat → Nat
  | _, 0 => 0
  | none, _ + 1 => 0
  | some i, fuel + 1 =>
    match nodes[i]? with
    | none => 0
    | some nd =>
      (if maskFree mask nd.symbol then nd.count else 0) +
        totalChildrenFrom nodes mask nd.next fuel

/-- Helper writing a patched backoff link, used for the deferred
`symbolNode.backoff_ = ...` assignments of `addSymbolToNode_`. -/
def setBackoff (m : PPM) (i : Nat) (b : Nat) : PPM :=
  match m.nodes[i]? with
  | none => m
  | some nd => { m with nodes := m.nodes.set i { nd with backoff := some b } }

/-- Count update `symbolNode.count_++` of `addSymbolToNode_` for an existing
child `c` whose current record is `cnd`. -/
def bumpCount (m : PPM) (c : Nat) (cnd : Node) : PPM :=
  { m with nodes := m.nodes.set c { cnd with count := cnd.count + 1 } }

/-- Node creation step of `addSymbolToNode_`: push a fresh node (count 1,
`symbol_ = symbol`, `next_` = current leftmost child of `node`, no backoff
yet) and link it as the new leftmost child of `node`, incrementing
`numNodes_`.  The new node's arena index is the old arena length. -/
def pushChild (m : PPM) (node : Nat) (nd : Node) (symbol : Nat) : PPM :=
  { m with
    nodes :=
      (m.nodes ++
        [({ child := none, next := nd.child, backoff := none, count := 1,
            symbol := symbol } : Node)]).set node { nd with child := some m.nodes.length },
    numNodes := m.numNodes + 1 }

/-- Translation of `PPMLanguageModel.addSymbolToNode_(node, symbol)`.
When the child exists its count is incremented and it is returned; otherwise
a new child node is created via `pushChild` and its backoff is the root if
`node` is the root, else the result of the recursive call on `node`'s
backoff, which runs on the arena that already holds the new node, exactly as
in the source.  `none` models a crash: fuel exhaustion (impossible for
well-formed states) or the failed assertion `Expected valid backoff node`. -/
def growNode (m : PPM) (node : Nat) (symbol : Nat) :
    Nat → Option (PPM × Nat)
  | 0 => none
  | fuel + 1 =>
    match findChildWithSymbol m.nodes node symbol with
    | some c =>
      match m.nodes[c]? with
      | none => none
      | some cnd => some (bumpCount m c cnd, c)
    | none =>
      match m.nodes[node]? with
      | none => none
      | some nd =>
        if node = 0 then
          some (setBackoff (pushChild m node nd symbol) m.nodes.length 0,
            m.nodes.length)
        else
          match nd.backoff with
          | none => none
          | some b =>
            match growNode (pushChild m node nd symbol) b symbol fuel with
            | none => none
            | some (m2, bNode) =>
              some (setBackoff m2 m.nodes.length bNode, m.nodes.length)

/-- While loop of `addSymbolToContext`: try to extend the context by a child
with the given symbol while the order allows, otherwise back off; when the
head runs past the root the loop ends with a null head.  `none` is fuel
exhaustion or a dangling index, impossible for well-formed states. -/
def advanceLoop (m : PPM) (symbol : Nat) :
    Option Nat → Int → Nat → Option (Option Nat × Int)
  | _, _, 0 => none
  | none, order, _ + 1 => some (none, order)
  | some h, order, fuel + 1 =>
    match m.nodes[h]? with
    | none => none
    | some nd =>
      if order < (m.maxOrder : Int) then
        match findChildWithSymbol m.nodes h symbol with
        | some c => some (some c, order + 1)
        | none => advanceLoop m symbol nd.backoff (order - 1) fuel
      else advanceLoop m symbol nd.backoff (order - 1) fuel

/-- Translation of `PPMLanguageModel.addSymbolToContext(context, symbol)`:
symbols at or below the root sentinel are ignored, a symbol index at or
above the vocabulary size fails the assertion `Invalid symbol`, otherwise
the loop runs and a null head resets the context to `(root, 0)`. -/
def addSymbolToContext (m : PPM) (ctx : Context) (symbol : Int) :
    Except String Context :=
  if symbol ≤ 0 then .ok ctx
  else if (m.vocabSize : Int) ≤ symbol then .error "Invalid symbol"
  else
    match advanceLoop m symbol.toNat ctx.head ctx.order (m.nodes.length + 1) with
    | none => .error "advance loop diverged"
    | some (head, order) =>
      match head with
      | none => .ok ⟨some 0, 0⟩
      | some h => .ok ⟨some h, order⟩

/-- While loop of `addSymbolAndUpdate`: back off while the order exceeds the
maximum order.  Reading the backoff of a null head models the crash of the
source on `null.backoff_`. -/
def backoffWhile (m : PPM) :
    Option Nat → Int → Nat → Option (Option Nat × Int)
  | head, order, 0 =>
    if (m.maxOrder : Int) < order then none else some (head, order)
  | head, order, fuel + 1 =>
    if (m.maxOrder : Int) < order then
      match head with
      | none => none
      | some h =>
        match m.nodes[h]? with
        | none => none
        | some nd => backoffWhile m nd.backoff (order - 1) fuel
    else some (head, order)

/-- Translation of `PPMLanguageModel.addSymbolAndUpdate(context, symbol)`:
the two guards, the trie growth at the context head, the assertion
`symbolNode == context.head_.findChildWithSymbol(symbol)`, and the
order-trimming loop. -/
def addSymbolAndUpdate (m : PPM) (ctx : Context) (symbol : Int) :
    Except String (PPM × Context) :=
  if symbol ≤ 0 then .ok (m, ctx)
  else if (m.vocabSize : Int) ≤ symbol then .error "Invalid symbol"
  else
    match ctx.head with
    | none => .error "null context head"
    | some h =>
      match growNode m h symbol.toNat m.nodes.length with
      | none => .error "growNode diverged"
      | some (m2, r) =>
        if findChildWithSymbol m2.nodes h symbol.toNat = some r then
          match backoffWhile m2 (some r) (ctx.order + 1)
              ((ctx.order + 1 - (m2.maxOrder : Int)).toNat) with
          | none => .error "backoff loop diverged"
          | some (head2, order2) => .ok (m2, ⟨head2, order2⟩)
        else .error "Assertion failed"

/-- Per-child mass `gamma * (childNode.count_ - knBeta) / (count + knAlpha)`
assigned inside the estimation loop of `getProbs`. -/
def childMass (gamma : ℚ) (cnt : Nat) (total : Nat) : ℚ :=
  gamma * ((cnt : ℚ) - knBeta) / ((total : ℚ) + knAlpha)

/-- Update `probs[s] += p` on the probability list. -/
def addProb (probs : List ℚ) (s : Nat) (p : ℚ) : List ℚ :=
  probs.set s (probs[s]?.getD 0 + p)

/-- Inner loop of `getProbs` over the children of the current node:
assign mass to each non-excluded child symbol, subtract it from the total
mass, and mark the symbol in the exclusion mask. -/
def childLoop (nodes : List Node) (gamma : ℚ) (total : Nat) :
    Option Nat → List ℚ × ℚ × Option (List Bool) → Nat →
      List ℚ × ℚ × Option (List Bool)
  | _, st, 0 => st
  | none, st, _ + 1 => st
  | some i, (probs, tm, mask), fuel + 1 =>
    match nodes[i]? with
    | none => (probs, tm, mask)
    | some nd =>
      if maskFree mask nd.symbol then
        let p := childMass gamma nd.count total
        childLoop nodes gamma total nd.next
          (addProb probs nd.symbol p, tm - p, maskSet mask nd.symbol) fuel
      else childLoop nodes gamma total nd.next (probs, tm, mask) fuel

/-- Outer loop of `getProbs` over the backoff chain of the context head:
process the children of each node when their total count is positive, then
move to the backoff node with `gamma` refreshed to the remaining mass. -/
def walkLoop (m : PPM) :
    Option Nat → List ℚ × ℚ × ℚ × Option (List Bool) → Nat →
      Option (List ℚ × ℚ × Option (List Bool))
  | _, _, 0 => none
  | none, (probs, tm, _, mask), _ + 1 => some (probs, tm, mask)
  | some i, (probs, tm, gamma, mask), fuel + 1 =>
    match m.nodes[i]? with
    | none => none
    | some nd =>
      let cnt := totalChildrenFrom m.nodes mask nd.child m.nodes.length
      let st :=
        if 0 < cnt then childLoop m.nodes gamma cnt nd.child (probs, tm, mask) m.nodes.length
        else (probs, tm, mask)
      walkLoop m nd.backoff (st.1, st.2.1, st.2.1, st.2.2) fuel

/-- Indices `1, ..., n-1` of the real symbols, as iterated by the two
redistribution loops `for (let i = 1; i < numSymbols; ++i)`. -/
def realIdxs (n : Nat) : List Nat := (List.range n).drop 1

/-- First redistribution loop of `getProbs`: every not-yet-excluded real
symbol receives `remainingMass / numUnseenSymbols`. -/
def redistOne (mask : Option (List Bool)) (numUnseen : Nat)
    (remainingMass : ℚ) : List Nat → List ℚ × ℚ → List ℚ × ℚ
  | [], st => st
  | i :: rest, (probs, tm) =>
    if maskFree mask i then
      let p := remainingMass / (numUnseen : ℚ)
      redistOne mask numUnseen remainingMass rest (addProb probs i p, tm - p)
    else redistOne mask numUnseen remainingMass rest (probs, tm)

/-- Second redistribution loop of `getProbs`: every real symbol receives
`totalMass / leftSymbols` with `leftSymbols` counting down, while
`newProbMass` accumulates the final entries. -/
def redistTwo : List Nat → List ℚ × ℚ × ℚ × Nat → List ℚ × ℚ × ℚ
  | [], (probs, tm, npm, _) => (probs, tm, npm)
  | i :: rest, (probs, tm, npm, leftSymbols) =>
    let p := tm / (leftSymbols : ℚ)
    let probs2 := addProb probs i p
    redistTwo rest (probs2, tm - p, npm + probs2[i]?.getD 0, leftSymbols - 1)

/-- Count of `numUnseenSymbols`: real symbols not excluded by the mask. -/
def numUnseenCount (mask : Option (List Bool)) (idxs : List Nat) : Nat :=
  (idxs.filter (fun i => maskFree mask i)).length

/-- Translation of `PPMLanguageModel.getProbs(context)`: zero-initialised
probabilities, optional exclusion mask, the backoff walk, the assertion on
the remaining mass, the two redistribution passes and the two final
assertions. -/
def getProbs (m : PPM) (ctx : Context) : Except String (List ℚ) :=
  let n := m.vocabSize
  let probs0 := List.replicate n (0 : ℚ)
  let mask0 : Option (List Bool) :=
    if m.useExclusion then some (List.replicate n false) else none
  match walkLoop m ctx.head (probs0, 1, 1, mask0) (m.nodes.length + 1) with
  | none => .error "walk diverged"
  | some (probs, tm, mask) =>
    if tm < 0 then .error "Invalid remaining probability mass"
    else
      let numUnseen := numUnseenCount mask (realIdxs n)
      let st1 := redistOne mask numUnseen tm (realIdxs n) (probs, tm)
      let st2 := redistTwo (realIdxs n) (st1.1, st1.2, 0, n - 1)
      if st2.2.1 ≠ 0 then .error "Expected remaining probability mass to be zero"
      else if ¬ (|1 - st2.2.2| < epsilon) then .error "newProbMass out of epsilon"
      else .ok st2.1

/-- Residual mass left after the two redistribution passes of `getProbs`,
exposed for the specification of the final-mass postcondition. -/
def residualMass (m : PPM) (ctx : Context) : Option ℚ :=
  let n := m.vocabSize
  let probs0 := List.replicate n (0 : ℚ)
  let mask0 : Option (List Bool) :=
    if m.useExclusion then some (List.replicate n false) else none
  match walkLoop m ctx.head (probs0, 1, 1, mask0) (m.nodes.length + 1) with
  | none => none
  | some (probs, tm, mask) =>
    let numUnseen := numUnseenCount mask (realIdxs n)
    let st1 := redistOne mask numUnseen tm (realIdxs n) (probs, tm)
    let st2 := redistTwo (realIdxs n) (st1.1, st1.2, 0, n - 1)
    some st2.2.1

/-- Combined-state non-learning advance (`advance` of the spec): the source
method writes only the context fields, so the model component is returned
unchanged. -/
def advanceStep (s : PPM × Context) (symbol : Int) :
    Except String (PPM × Context) :=
  (addSymbolToContext s.1 s.2 symbol).map (fun c => (s.1, c))

/-- Combined-state learning advance (`observe` of the spec). -/
def observeStep (s : PPM × Context) (symbol : Int) :
    Except String (PPM × Context) :=
  addSymbolAndUpdate s.1 s.2 symbol

/-- Reachable model/context pairs: constructed by `new PPMLanguageModel` +
`createContext`, and closed under successful `observe` and `advance` calls
and under taking a fresh context on the current model. -/
inductive Reachable : PPM × Context → Prop where
  | init : ∀ n mo m, PPM.new n mo = .ok m → Reachable (m, createContext m)
  | observe : ∀ s sym s', Reachable s → observeStep s sym = .ok s' → Reachable s'
  | advance : ∀ s sym s', Reachable s → advanceStep s sym = .ok s' → Reachable s'
  | fresh : ∀ s, Reachable s → Reachable (s.1, createContext s.1)

/-! ## List helper lemmas -/

lemma exists_getElem?_of_lt {α : Type _} {l : List α} {i : Nat} (h : i < l.length) :
    ∃ a, l[i]? = some a := ⟨l[i], List.getElem?_eq_getElem h⟩

lemma lt_of_getElem?_some {α : Type _} {l : List α} {i : Nat} {a : α}
    (h : l[i]? = some a) : i < l.length := by
  rcases List.getElem?_eq_some.mp h with ⟨hlt, _⟩
  exact hlt

lemma sum_drop_one (l : List ℚ) (h : l ≠ []) :
    l.sum = l[0]?.getD 0 + (l.drop 1).sum := by
  cases l with
  | nil => exact absurd rfl h
  | cons a t => simp [List.sum_cons]

lemma set_getD_self (l : List ℚ) (i : Nat) (h : i < l.length) :
    l.set i (l[i]?.getD 0 + 0) = l := by
  induction l generalizing i with
  | nil => simp at h
  | cons a t ih =>
    cases i with
    | zero => simp
    | succ j =>
      simp only [List.set_cons_succ, List.getElem?_cons_succ]
      have := ih j (by simpa using h)
      rw [this]

lemma sum_set_add (l : List ℚ) (i : Nat) (p : ℚ) (h : i < l.length) :
    (l.set i (l[i]?.getD 0 + p)).sum = l.sum + p := by
  induction l generalizing i with
  | nil => simp at h
  | cons a t ih =>
    cases i with
    | zero => simp [List.sum_cons]; ring
    | succ j =>
      simp only [List.set_cons_succ, List.getElem?_cons_succ, List.sum_cons]
      rw [ih j (by simpa using h)]
      ring

lemma sum_map_range_getD (l : List ℚ) :
    (((List.range l.length).map (fun i => l[i]?.getD 0))).sum = l.sum := by
  induction l with
  | nil => simp
  | cons a t ih =>
    rw [List.length_cons, List.range_succ_eq_map, List.map_cons, List.map_map,
      List.sum_cons]
    have h2 : (List.range t.length).map ((fun i => (a :: t)[i]?.getD 0) ∘ Nat.succ)
        = (List.range t.length).map (fun i => t[i]?.getD 0) := by
      apply List.map_congr_left
      intro i _
      simp [Function.comp, Nat.succ_eq_add_one]
    rw [h2, ih]
    simp

lemma realIdxs_eq (n : Nat) : realIdxs n = (List.range (n - 1)).map Nat.succ := by
  cases n with
  | zero => simp [realIdxs]
  | succ m => rw [realIdxs, List.range_succ_eq_map]; simp

lemma mem_realIdxs {i n : Nat} : i ∈ realIdxs n ↔ 1 ≤ i ∧ i < n := by
  rw [realIdxs_eq]
  constructor
  · rintro hm
    rcases List.mem_map.mp hm with ⟨j, hj, rfl⟩
    rcases List.mem_range.mp hj with hj'
    omega
  · rintro ⟨h1, h2⟩
    refine List.mem_map.mpr ⟨i - 1, List.mem_range.mpr (by omega), by omega⟩

lemma realIdxs_nodup (n : Nat) : (realIdxs n).Nodup := by
  rw [realIdxs_eq]
  exact (List.nodup_range _).map (fun _ _ h => Nat.succ_injective h)

lemma realIdxs_length (n : Nat) : (realIdxs n).length = n - 1 := by
  rw [realIdxs_eq]; simp

lemma sum_map_realIdxs_getD (l : List ℚ) {n : Nat} (hl : l.length = n) :
    (((realIdxs n).map (fun i => l[i]?.getD 0))).sum = (l.drop 1).sum := by
  cases l with
  | nil => subst hl; simp [realIdxs]
  | cons a t =>
    subst hl
    rw [show (a :: t).length = t.length + 1 from rfl, realIdxs, List.range_succ_eq_map]
    simp only [List.drop_succ_cons, List.drop_zero, List.map_map]
    rw [show ((fun i => (a :: t)[i]?.getD 0) ∘ Nat.succ) = (fun i => t[i]?.getD 0) by
      funext i; simp]
    exact sum_map_range_getD t

/-! ## addProb lemmas -/

lemma addProb_length (probs : List ℚ) (s : Nat) (p : ℚ) :
    (addProb probs s p).length = probs.length := by
  simp [addProb]

lemma addProb_sum (probs : List ℚ) (s : Nat) (p : ℚ) (h : s < probs.length) :
    (addProb probs s p).sum = probs.sum + p := sum_set_add probs s p h

lemma addProb_getElem?_ne (probs : List ℚ) {s j : Nat} (p : ℚ) (h : s ≠ j) :
    (addProb probs s p)[j]? = probs[j]? := List.getElem?_set_ne h

lemma addProb_getElem?_self (probs : List ℚ) (s : Nat) (p : ℚ)
    (h : s < probs.length) :
    (addProb probs s p)[s]? = some (probs[s]?.getD 0 + p) := by
  simp [addProb, List.getElem?_set, h]

lemma addProb_nonneg {probs : List ℚ} {s : Nat} {p : ℚ}
    (hp : ∀ (j : Nat) (q : ℚ), probs[j]? = some q → 0 ≤ q) (hpos : 0 ≤ p) :
    ∀ (j : Nat) (q : ℚ), (addProb probs s p)[j]? = some q → 0 ≤ q := by
  intro j q hq
  rcases eq_or_ne s j with rfl | hne
  · by_cases hlt : s < probs.length
    · rw [addProb_getElem?_self _ _ _ hlt] at hq
      rcases exists_getElem?_of_lt hlt with ⟨a, ha⟩
      have ha' := hp s a ha
      rw [ha] at hq
      simp only [Option.getD_some, Option.some.injEq] at hq
      rw [← hq]
      positivity
    · have hnone : (addProb probs s p)[s]? = none :=
        List.getElem?_eq_none (by rw [addProb_length]; omega)
      rw [hnone] at hq
      cases hq
  · rw [addProb_getElem?_ne _ _ hne] at hq
    exact hp j q hq

/-! ## Exclusion mask lemmas -/

lemma maskFree_maskSet_mono {mask : Option (List Bool)} {s t : Nat}
    (h : maskFree (maskSet mask s) t = true) : maskFree mask t = true := by
  cases mask with
  | none => rfl
  | some l =>
    simp only [maskFree, maskSet] at h ⊢
    rcases eq_or_ne s t with rfl | hne
    · by_cases hlt : s < l.length
      · rw [List.getElem?_set, if_pos rfl, if_pos hlt] at h
        simp at h
      · rw [List.getElem?_eq_none (by simpa using hlt)]
        simp
    · rwa [List.getElem?_set_ne hne] at h

lemma totalChildrenFrom_mask_mono (nodes : List Node)
    {mask mask' : Option (List Bool)}
    (h : ∀ t, maskFree mask' t = true → maskFree mask t = true) :
    ∀ (cur : Option Nat) (fuel : Nat),
      totalChildrenFrom nodes mask' cur fuel ≤ totalChildrenFrom nodes mask cur fuel := by
  intro cur fuel
  induction fuel generalizing cur with
  | zero => cases cur <;> simp [totalChildrenFrom]
  | succ f ih =>
    cases cur with
    | none => simp [totalChildrenFrom]
    | some i =>
      simp only [totalChildrenFrom]
      cases hnd : nodes[i]? with
      | none => simp [hnd]
      | some nd =>
        simp only [hnd]
        have hrest := ih nd.next
        by_cases hfree : maskFree mask' nd.symbol = true
        · have h2 := h _ hfree
          rw [if_pos hfree, if_pos h2]
          omega
        · rw [if_neg hfree]
          have h3 : totalChildrenFrom nodes mask nd.next f
              ≤ (if maskFree mask nd.symbol = true then nd.count else 0)
                + totalChildrenFrom nodes mask nd.next f := by
            split <;> omega
          omega

/-! ## Well-formedness of the arena

A depth function `d` witnesses that backoff links strictly shorten the
context: `d i` is the trie depth of node `i`.  `PreWF` collects all the
structural invariants except totality of backoff links, which is broken
transiently inside `addSymbolToNode_` (the new node's backoff is assigned
only after the recursive call). -/

structure PreWF (m : PPM) (d : Nat → Nat) : Prop where
  ne : m.nodes ≠ []
  rootBackoff : ∀ (nd : Node), m.nodes[0]? = some nd → nd.backoff = none
  rootDepth : d 0 = 0
  nextLt : ∀ (i : Nat) (nd : Node) (j : Nat),
    m.nodes[i]? = some nd → nd.next = some j → j < i ∧ 0 < j
  childLt : ∀ (i : Nat) (nd : Node) (c : Nat),
    m.nodes[i]? = some nd → nd.child = some c → c < m.nodes.length ∧ 0 < c
  backoffDepth : ∀ (i : Nat) (nd : Node) (b : Nat),
    m.nodes[i]? = some nd → nd.backoff = some b → b < m.nodes.length ∧ d i = d b + 1
  childDepth : ∀ (i : Nat) (nd : Node) (c : Nat),
    m.nodes[i]? = some nd → nd.child = some c → d c = d i + 1
  nextDepth : ∀ (i : Nat) (nd : Node) (j : Nat),
    m.nodes[i]? = some nd → nd.next = some j → d j = d i
  depthLt : ∀ (i : Nat), i < m.nodes.length → d i < m.nodes.length
  countPos : ∀ (i : Nat) (nd : Node), m.nodes[i]? = some nd → 1 ≤ nd.count
  symbolOk : ∀ (i : Nat) (nd : Node), m.nodes[i]? = some nd → 0 < i →
    1 ≤ nd.symbol ∧ nd.symbol < m.vocabSize
  vocabGe : 2 ≤ m.vocabSize

/-- Full well-formedness: additionally every non-root node has a backoff
link (`backoffTotal`), as the source asserts. -/
structure WFd (m : PPM) (d : Nat → Nat) extends PreWF m d : Prop where
  backoffTotal : ∀ (i : Nat) (nd : Node), m.nodes[i]? = some nd → 0 < i →
    nd.backoff.isSome

/-- Backoff links exist for all non-root nodes of depth at most `D`; this is
the part of `backoffTotal` that the recursive growth actually reads. -/
def PathTotal (m : PPM) (d : Nat → Nat) (D : Nat) : Prop :=
  ∀ (i : Nat) (nd : Node), m.nodes[i]? = some nd → 0 < i → d i ≤ D →
    nd.backoff.isSome

/-- Context validity: the head exists, its arena index is in range, the
stored order is exactly its trie depth, and the order respects the maximum
order. -/
structure CtxOK (m : PPM) (d : Nat → Nat) (ctx : Context) : Prop where
  headLt : ∃ h, ctx.head = some h ∧ h < m.nodes.length ∧ ctx.order = (d h : Int)
  orderLe : ctx.order ≤ (m.maxOrder : Int)

/-- Global invariant of a reachable model/context pair. -/
def Inv (s : PPM × Context) : Prop :=
  ∃ d, WFd s.1 d ∧ CtxOK s.1 d s.2

/-! ## findChild lemmas -/

lemma findChildFrom_spec {nodes : List Node} {d : Nat → Nat} {n : Nat}
    (hnext : ∀ (i : Nat) (nd : Node) (j : Nat),
      nodes[i]? = some nd → nd.next = some j → j < i ∧ 0 < j)
    (hnd : ∀ (i : Nat) (nd : Node) (j : Nat),
      nodes[i]? = some nd → nd.next = some j → d j = d i)
    (hsym : ∀ (i : Nat) (nd : Node), nodes[i]? = some nd → 0 < i →
      1 ≤ nd.symbol ∧ nd.symbol < n)
    {symbol : Nat} {D : Nat} :
    ∀ (fuel : Nat) (cur : Option Nat) (c : Nat),
      (∀ j, cur = some j → 0 < j ∧ d j = D) →
      findChildFrom nodes symbol cur fuel = some c →
      ∃ cnd, nodes[c]? = some cnd ∧ cnd.symbol = symbol ∧ 0 < c ∧ d c = D ∧
        1 ≤ symbol ∧ symbol < n := by
  intro fuel
  induction fuel with
  | zero => intro cur c _ h; simp [findChildFrom] at h
  | succ f ih =>
    intro cur c hcur h
    cases cur with
    | none => simp [findChildFrom] at h
    | some i =>
      rcases hcur i rfl with ⟨hi0, hiD⟩
      cases hget : nodes[i]? with
      | none => simp [findChildFrom, hget] at h
      | some nd =>
        simp only [findChildFrom, hget] at h
        by_cases hs : nd.symbol = symbol
        · rw [if_pos hs] at h
          cases h
          rcases hsym _ _ hget hi0 with ⟨h1, h2⟩
          exact ⟨nd, hget, hs, hi0, hiD, hs ▸ h1, hs ▸ h2⟩
        · rw [if_neg hs] at h
          refine ih nd.next c ?_ h
          intro j hj
          rcases hnext _ _ _ hget hj with ⟨_, hj0⟩
          exact ⟨hj0, (hnd _ _ _ hget hj).trans hiD⟩

lemma findChildWithSymbol_spec {m : PPM} {d : Nat → Nat} (hw : PreWF m d)
    {i symbol c : Nat} (h : findChildWithSymbol m.nodes i symbol = some c) :
    ∃ cnd, m.nodes[c]? = some cnd ∧ cnd.symbol = symbol ∧ 0 < c ∧
      d c = d i + 1 ∧ 1 ≤ symbol ∧ symbol < m.vocabSize := by
  cases hget : m.nodes[i]? with
  | none => simp [findChildWithSymbol, hget] at h
  | some nd =>
    simp only [findChildWithSymbol, hget] at h
    refine findChildFrom_spec hw.nextLt hw.nextDepth hw.symbolOk _ nd.child c ?_ h
    intro j hj
    rcases hw.childLt _ _ _ hget hj with ⟨_, hj0⟩
    exact ⟨hj0, hw.childDepth _ _ _ hget hj⟩

/-- Two arenas with the same search-relevant links (symbol, next, child of
every node, and the same length) resolve child searches identically. -/
def LinksEq (nodes nodes' : List Node) : Prop :=
  nodes.length = nodes'.length ∧
    ∀ (j : Nat), (nodes[j]?.map Node.symbol = nodes'[j]?.map Node.symbol) ∧
      (nodes[j]?.map Node.next = nodes'[j]?.map Node.next) ∧
      (nodes[j]?.map Node.child = nodes'[j]?.map Node.child)

lemma linksEq_refl (nodes : List Node) : LinksEq nodes nodes := ⟨rfl, by simp⟩

lemma linksEq_set_count (nodes : List Node) (c : Nat) (nd : Node) (k : Nat)
    (h : nodes[c]? = some nd) :
    LinksEq nodes (nodes.set c { nd with count := k }) := by
  refine ⟨(List.length_set nodes c _).symm, ?_⟩
  intro j
  rcases eq_or_ne c j with rfl | hne
  · rw [List.getElem?_set, if_pos rfl, if_pos (lt_of_getElem?_some h), h]
    simp
  · rw [List.getElem?_set_ne hne]
    simp

lemma linksEq_set_backoff (nodes : List Node) (c : Nat) (nd : Node) (b : Option Nat)
    (h : nodes[c]? = some nd) :
    LinksEq nodes (nodes.set c { nd with backoff := b }) := by
  refine ⟨(List.length_set nodes c _).symm, ?_⟩
  intro j
  rcases eq_or_ne c j with rfl | hne
  · rw [List.getElem?_set, if_pos rfl, if_pos (lt_of_getElem?_some h), h]
    simp
  · rw [List.getElem?_set_ne hne]
    simp

lemma findChildFrom_congr {nodes nodes' : List Node} (h : LinksEq nodes nodes')
    (symbol : Nat) :
    ∀ (fuel : Nat) (cur : Option Nat),
      findChildFrom nodes symbol cur fuel = findChildFrom nodes' symbol cur fuel := by
  intro fuel
  induction fuel with
  | zero => intro cur; cases cur <;> rfl
  | succ f ih =>
    intro cur
    cases cur with
    | none => rfl
    | some i =>
      rcases (h.2 i) with ⟨hs, hn, _⟩
      cases hget : nodes[i]? with
      | none =>
        rw [hget] at hs
        cases hget' : nodes'[i]? with
        | none => simp [findChildFrom, hget, hget']
        | some nd' => rw [hget'] at hs; cases hs
      | some nd =>
        rw [hget] at hs hn
        cases hget' : nodes'[i]? with
        | none => rw [hget'] at hs; cases hs
        | some nd' =>
          rw [hget'] at hs hn
          simp only [Option.map_some', Option.some.injEq] at hs hn
          simp only [findChildFrom, hget, hget', hs, hn, ih]

lemma findChildWithSymbol_congr {nodes nodes' : List Node}
    (h : LinksEq nodes nodes') (i symbol : Nat) :
    findChildWithSymbol nodes i symbol = findChildWithSymbol nodes' i symbol := by
  rcases (h.2 i) with ⟨_, _, hc⟩
  cases hget : nodes[i]? with
  | none =>
    rw [hget] at hc
    cases hget' : nodes'[i]? with
    | none => simp [findChildWithSymbol, hget, hget']
    | some nd' => rw [hget'] at hc; cases hc
  | some nd =>
    rw [hget] at hc
    cases hget' : nodes'[i]? with
    | none => rw [hget'] at hc; cases hc
    | some nd' =>
      rw [hget'] at hc
      simp only [Option.map_some', Option.some.injEq] at hc
      simp only [findChildWithSymbol, hget, hget', hc, h.1,
        findChildFrom_congr h]

/-! ## Arena descriptions of the growth steps -/

/-- Record of the freshly created node of `pushChild`. -/
def freshNode (nd : Node) (symbol : Nat) : Node :=
  { child := none, next := nd.child, backoff := none, count := 1,
    symbol := symbol }

lemma pushChild_nodes_getElem? {m : PPM} {node : Nat} {nd : Node}
    (hnode : m.nodes[node]? = some nd) (symbol : Nat) (j : Nat) :
    (pushChild m node nd symbol).nodes[j]? =
      if j = node then some { nd with child := some m.nodes.length }
      else if j = m.nodes.length then some (freshNode nd symbol)
      else m.nodes[j]? := by
  have hlt : node < m.nodes.length := lt_of_getElem?_some hnode
  rcases eq_or_ne j node with rfl | hjn
  · rw [if_pos rfl]
    simp only [pushChild]
    rw [List.getElem?_set, if_pos rfl,
      if_pos (by rw [List.length_append]; simp; omega)]
  · rw [if_neg hjn]
    simp only [pushChild]
    rw [List.getElem?_set_ne (Ne.symm hjn)]
    rcases eq_or_ne j m.nodes.length with rfl | hjl
    · rw [if_pos rfl]
      exact List.getElem?_concat_length m.nodes (freshNode nd symbol)
    · rw [if_neg hjl]
      rcases Nat.lt_or_ge j m.nodes.length with hj | hj
      · exact List.getElem?_append_left hj
      · have hj' : m.nodes.length < j := by omega
        rw [List.getElem?_append_right (by omega)]
        rw [List.getElem?_eq_none (l := m.nodes) (by omega)]
        apply List.getElem?_eq_none
        simp
        omega

lemma pushChild_length {m : PPM} (node : Nat) (nd : Node) (symbol : Nat) :
    (pushChild m node nd symbol).nodes.length = m.nodes.length + 1 := by
  simp [pushChild]

lemma pushChild_fields {m : PPM} (node : Nat) (nd : Node) (symbol : Nat) :
    (pushChild m node nd symbol).vocabSize = m.vocabSize ∧
    (pushChild m node nd symbol).maxOrder = m.maxOrder ∧
    (pushChild m node nd symbol).useExclusion = m.useExclusion := by
  refine ⟨rfl, rfl, rfl⟩

lemma setBackoff_eq {m : PPM} {i : Nat} {ndi : Node}
    (h : m.nodes[i]? = some ndi) (b : Nat) :
    setBackoff m i b = { m with nodes := m.nodes.set i { ndi with backoff := some b } } := by
  rw [setBackoff, h]

/-- Depth assignment after `pushChild`: the new node sits one level below
`node`. -/
def pushDepth (m : PPM) (d : Nat → Nat) (node : Nat) : Nat → Nat :=
  fun j => if j = m.nodes.length then d node + 1 else d j

lemma length_pos_of_preWF {m : PPM} {d : Nat → Nat} (hw : PreWF m d) :
    0 < m.nodes.length := List.length_pos.mpr hw.ne

/-! ## PreWF preservation lemmas -/

lemma preWF_bumpCount {m : PPM} {d : Nat → Nat} (hw : PreWF m d) {c : Nat}
    {cnd : Node} (hc : m.nodes[c]? = some cnd) :
    PreWF (bumpCount m c cnd) d := by
  have hlen : (bumpCount m c cnd).nodes.length = m.nodes.length := by
    simp [bumpCount]
  have hget : ∀ (j : Nat) (nd' : Node), (bumpCount m c cnd).nodes[j]? = some nd' →
      ∃ nd, m.nodes[j]? = some nd ∧ nd'.child = nd.child ∧ nd'.next = nd.next ∧
        nd'.backoff = nd.backoff ∧ nd'.symbol = nd.symbol ∧ nd.count ≤ nd'.count := by
    intro j nd' h
    rcases eq_or_ne c j with rfl | hne
    · rw [bumpCount] at h
      simp only at h
      rw [List.getElem?_set, if_pos rfl, if_pos (lt_of_getElem?_some hc)] at h
      cases h
      exact ⟨cnd, hc, rfl, rfl, rfl, rfl, Nat.le_succ _⟩
    · rw [bumpCount] at h
      simp only at h
      rw [List.getElem?_set_ne hne] at h
      exact ⟨nd', h, rfl, rfl, rfl, rfl, le_refl _⟩
  refine ⟨?_, ?_, hw.rootDepth, ?_, ?_, ?_, ?_, ?_, ?_, ?_, ?_, hw.vocabGe⟩
  · intro h
    apply hw.ne
    have := congrArg List.length h
    rw [hlen] at this
    exact List.length_eq_zero.mp this
  · intro nd h
    rcases hget 0 nd h with ⟨nd0, h0, _, _, hb, _, _⟩
    rw [hb]
    exact hw.rootBackoff nd0 h0
  · intro i nd j h hn
    rcases hget i nd h with ⟨nd0, h0, _, hnx, _, _, _⟩
    exact hw.nextLt i nd0 j h0 (by rw [← hnx]; exact hn)
  · intro i nd cc h hcc
    rcases hget i nd h with ⟨nd0, h0, hch, _, _, _, _⟩
    rw [hlen]
    exact hw.childLt i nd0 cc h0 (by rw [← hch]; exact hcc)
  · intro i nd b h hb
    rcases hget i nd h with ⟨nd0, h0, _, _, hbk, _, _⟩
    rw [hlen]
    exact hw.backoffDepth i nd0 b h0 (by rw [← hbk]; exact hb)
  · intro i nd cc h hcc
    rcases hget i nd h with ⟨nd0, h0, hch, _, _, _, _⟩
    exact hw.childDepth i nd0 cc h0 (by rw [← hch]; exact hcc)
  · intro i nd j h hn
    rcases hget i nd h with ⟨nd0, h0, _, hnx, _, _, _⟩
    exact hw.nextDepth i nd0 j h0 (by rw [← hnx]; exact hn)
  · intro i hi
    rw [hlen] at hi ⊢
    exact hw.depthLt i hi
  · intro i nd h
    rcases hget i nd h with ⟨nd0, h0, _, _, _, _, hcnt⟩
    exact le_trans (hw.countPos i nd0 h0) hcnt
  · intro i nd h hi
    rcases hget i nd h with ⟨nd0, h0, _, _, _, hsy, _⟩
    rw [hsy]
    exact hw.symbolOk i nd0 h0 hi

lemma preWF_patch_backoff {m : PPM} {d : Nat → Nat} (hw : PreWF m d) {i : Nat}
    {ndi : Node} (hi : m.nodes[i]? = some ndi) {b : Nat}
    (hi0 : 0 < i) (hb : b < m.nodes.length) (hd : d i = d b + 1) :
    PreWF { m with nodes := m.nodes.set i { ndi with backoff := some b } } d := by
  have hlen : (m.nodes.set i { ndi with backoff := some b }).length = m.nodes.length := by
    simp
  have hget : ∀ (j : Nat) (nd' : Node),
      (m.nodes.set i { ndi with backoff := some b })[j]? = some nd' →
      ∃ nd, m.nodes[j]? = some nd ∧ nd'.child = nd.child ∧ nd'.next = nd.next ∧
        nd'.symbol = nd.symbol ∧ nd'.count = nd.count ∧
        (nd'.backoff = nd.backoff ∨ (j = i ∧ nd'.backoff = some b)) := by
    intro j nd' h
    rcases eq_or_ne i j with rfl | hne
    · rw [List.getElem?_set, if_pos rfl, if_pos (lt_of_getElem?_some hi)] at h
      cases h
      exact ⟨ndi, hi, rfl, rfl, rfl, rfl, Or.inr ⟨rfl, rfl⟩⟩
    · rw [List.getElem?_set_ne hne] at h
      exact ⟨nd', h, rfl, rfl, rfl, rfl, Or.inl rfl⟩
  refine ⟨?_, ?_, hw.rootDepth, ?_, ?_, ?_, ?_, ?_, ?_, ?_, ?_, hw.vocabGe⟩
  · intro h
    apply hw.ne
    have := congrArg List.length h
    rw [hlen] at this
    exact List.length_eq_zero.mp this
  · intro nd h
    rcases hget 0 nd h with ⟨nd0, h0, _, _, _, _, hbk⟩
    rcases hbk with hbk | ⟨hji, _⟩
    · rw [hbk]
      exact hw.rootBackoff nd0 h0
    · omega
  · intro ii nd j h hn
    rcases hget ii nd h with ⟨nd0, h0, _, hnx, _, _, _⟩
    exact hw.nextLt ii nd0 j h0 (by rw [← hnx]; exact hn)
  · intro ii nd cc h hcc
    rcases hget ii nd h with ⟨nd0, h0, hch, _, _, _, _⟩
    rw [hlen]
    exact hw.childLt ii nd0 cc h0 (by rw [← hch]; exact hcc)
  · intro ii nd bb h hbb
    rcases hget ii nd h with ⟨nd0, h0, _, _, _, _, hbk⟩
    rw [hlen]
    rcases hbk with hbk | ⟨rfl, hbk⟩
    · exact hw.backoffDepth ii nd0 bb h0 (by rw [← hbk]; exact hbb)
    · rw [hbk] at hbb
      cases hbb
      exact ⟨hb, hd⟩
  · intro ii nd cc h hcc
    rcases hget ii nd h with ⟨nd0, h0, hch, _, _, _, _⟩
    exact hw.childDepth ii nd0 cc h0 (by rw [← hch]; exact hcc)
  · intro ii nd j h hn
    rcases hget ii nd h with ⟨nd0, h0, _, hnx, _, _, _⟩
    exact hw.nextDepth ii nd0 j h0 (by rw [← hnx]; exact hn)
  · intro ii hii
    rw [hlen] at hii ⊢
    exact hw.depthLt ii hii
  · intro ii nd h
    rcases hget ii nd h with ⟨nd0, h0, _, _, _, hcnt, _⟩
    rw [hcnt]
    exact hw.countPos ii nd0 h0
  · intro ii nd h hii
    rcases hget ii nd h with ⟨nd0, h0, _, _, hsy, _, _⟩
    rw [hsy]
    exact hw.symbolOk ii nd0 h0 hii

lemma preWF_pushChild {m : PPM} {d : Nat → Nat} (hw : PreWF m d)
    {node symbol : Nat} {nd : Node} (hnode : m.nodes[node]? = some nd)
    (hs1 : 1 ≤ symbol) (hs2 : symbol < m.vocabSize) :
    PreWF (pushChild m node nd symbol) (pushDepth m d node) := by
  have hnlt : node < m.nodes.length := lt_of_getElem?_some hnode
  have hlen := pushChild_length (m := m) node nd symbol
  have hg := pushChild_nodes_getElem? hnode symbol
  have hdl : ∀ (j : Nat), j < m.nodes.length → pushDepth m d node j = d j := by
    intro j hj
    rw [pushDepth, if_neg (by omega)]
  have hdnew : pushDepth m d node m.nodes.length = d node + 1 := by
    rw [pushDepth, if_pos rfl]
  have hnode0 : 0 < m.nodes.length := length_pos_of_preWF hw
  refine ⟨?_, ?_, ?_, ?_, ?_, ?_, ?_, ?_, ?_, ?_, ?_, hw.vocabGe⟩
  · intro h
    have := congrArg List.length h
    rw [hlen] at this
    simp at this
  · intro nd' h
    rw [hg 0] at h
    rcases eq_or_ne (0 : Nat) node with h0 | h0
    · rw [if_pos h0] at h
      cases h
      exact hw.rootBackoff nd (h0 ▸ hnode)
    · rw [if_neg h0, if_neg (by omega)] at h
      exact hw.rootBackoff nd' h
  · rw [pushDepth, if_neg (by omega)]
    exact hw.rootDepth
  · intro i nd' j h hn
    rw [hg i] at h
    by_cases hi : i = node
    · rw [if_pos hi] at h
      cases h
      simp only at hn
      exact hi ▸ hw.nextLt node nd j hnode hn
    · rw [if_neg hi] at h
      by_cases hil : i = m.nodes.length
      · rw [if_pos hil] at h
        cases h
        simp only [freshNode] at hn
        rcases hw.childLt node nd j hnode hn with ⟨h1, h2⟩
        omega
      · rw [if_neg hil] at h
        exact hw.nextLt i nd' j h hn
  · intro i nd' c h hc
    rw [hg i] at h
    rw [hlen]
    by_cases hi : i = node
    · rw [if_pos hi] at h
      cases h
      simp only [Option.some.injEq] at hc
      omega
    · rw [if_neg hi] at h
      by_cases hil : i = m.nodes.length
      · rw [if_pos hil] at h
        cases h
        simp [freshNode] at hc
      · rw [if_neg hil] at h
        rcases hw.childLt i nd' c h hc with ⟨h1, h2⟩
        omega
  · intro i nd' b h hb
    rw [hg i] at h
    rw [hlen]
    by_cases hi : i = node
    · rw [if_pos hi] at h
      cases h
      simp only at hb
      subst hi
      rcases hw.backoffDepth i nd b hnode hb with ⟨h1, h2⟩
      rw [hdl i hnlt, hdl b h1]
      omega
    · rw [if_neg hi] at h
      by_cases hil : i = m.nodes.length
      · rw [if_pos hil] at h
        cases h
        simp [freshNode] at hb
      · rw [if_neg hil] at h
        rcases hw.backoffDepth i nd' b h hb with ⟨h1, h2⟩
        rw [hdl i (lt_of_getElem?_some h), hdl b h1]
        omega
  · intro i nd' c h hc
    rw [hg i] at h
    by_cases hi : i = node
    · rw [if_pos hi] at h
      cases h
      simp only [Option.some.injEq] at hc
      subst hi
      rw [← hc, hdnew, hdl i hnlt]
    · rw [if_neg hi] at h
      by_cases hil : i = m.nodes.length
      · rw [if_pos hil] at h
        cases h
        simp [freshNode] at hc
      · rw [if_neg hil] at h
        have h1 := hw.childDepth i nd' c h hc
        have h2 := (hw.childLt i nd' c h hc).1
        rw [hdl c h2, hdl i (lt_of_getElem?_some h)]
        omega
  · intro i nd' j h hn
    rw [hg i] at h
    by_cases hi : i = node
    · rw [if_pos hi] at h
      cases h
      simp only at hn
      subst hi
      have h1 := hw.nextDepth i nd j hnode hn
      have h2 := (hw.nextLt i nd j hnode hn).1
      rw [hdl j (by omega), hdl i hnlt]
      omega
    · rw [if_neg hi] at h
      by_cases hil : i = m.nodes.length
      · rw [if_pos hil] at h
        cases h
        simp only [freshNode] at hn
        have h1 := hw.childDepth node nd j hnode hn
        have h2 := (hw.childLt node nd j hnode hn).1
        subst hil
        rw [hdl j h2, hdnew]
        omega
      · rw [if_neg hil] at h
        have h1 := hw.nextDepth i nd' j h hn
        have h2 := (hw.nextLt i nd' j h hn).1
        have h3 := lt_of_getElem?_some h
        rw [hdl j (by omega), hdl i h3]
        omega
  · intro i hi
    rw [hlen] at hi ⊢
    by_cases hil : i = m.nodes.length
    · subst hil
      rw [hdnew]
      have := hw.depthLt node hnlt
      omega
    · rw [hdl i (by omega)]
      have := hw.depthLt i (by omega)
      omega
  · intro i nd' h
    rw [hg i] at h
    by_cases hi : i = node
    · rw [if_pos hi] at h
      cases h
      exact hw.countPos node nd hnode
    · rw [if_neg hi] at h
      by_cases hil : i = m.nodes.length
      · rw [if_pos hil] at h
        cases h
        simp [freshNode]
      · rw [if_neg hil] at h
        exact hw.countPos i nd' h
  · intro i nd' h hi
    rw [hg i] at h
    by_cases hi' : i = node
    · rw [if_pos hi'] at h
      cases h
      exact hw.symbolOk node nd hnode (by omega)
    · rw [if_neg hi'] at h
      by_cases hil : i = m.nodes.length
      · rw [if_pos hil] at h
        cases h
        exact ⟨hs1, hs2⟩
      · rw [if_neg hil] at h
        exact hw.symbolOk i nd' h hi

lemma findChildWithSymbol_of_child_head {nodes : List Node} {i c symbol : Nat}
    {ndi ndc : Node} (hi : nodes[i]? = some ndi) (hc0 : ndi.child = some c)
    (hc : nodes[c]? = some ndc) (hsy : ndc.symbol = symbol) :
    findChildWithSymbol nodes i symbol = some c := by
  have hlen : 0 < nodes.length := lt_of_le_of_lt (Nat.zero_le _) (lt_of_getElem?_some hi)
  obtain ⟨lf, hlf⟩ : ∃ lf, nodes.length = lf + 1 := ⟨nodes.length - 1, by omega⟩
  simp only [findChildWithSymbol, hi]
  rw [hc0, hlf]
  simp only [findChildFrom, hc]
  rw [if_pos hsy]

/-! ## Specification of trie growth -/

/-- Postcondition bundle of `addSymbolToNode_` on a well-formed arena:
the result is well-formed with an extended depth function, old nodes keep
their symbol, sibling and backoff links with non-decreasing counts, nodes
strictly deeper than the grown child are untouched, nodes at the child's
depth keep their child links, all new nodes got a backoff link, and the
returned node is a child of `node` with the given symbol, one level below
`node`. -/
structure GrowOut (m : PPM) (d : Nat → Nat) (node symbol : Nat)
    (m' : PPM) (r : Nat) (d' : Nat → Nat) : Prop where
  pre : PreWF m' d'
  sameVocab : m'.vocabSize = m.vocabSize
  sameMax : m'.maxOrder = m.maxOrder
  sameExcl : m'.useExclusion = m.useExclusion
  lenLe : m.nodes.length ≤ m'.nodes.length
  dExt : ∀ (j : Nat), j < m.nodes.length → d' j = d j
  frameOld : ∀ (j : Nat) (nd0 ndf : Node), m.nodes[j]? = some nd0 →
    m'.nodes[j]? = some ndf →
    ndf.symbol = nd0.symbol ∧ ndf.next = nd0.next ∧ ndf.backoff = nd0.backoff ∧
      nd0.count ≤ ndf.count
  frameHigh : ∀ (j : Nat) (nd0 ndf : Node), m.nodes[j]? = some nd0 →
    m'.nodes[j]? = some ndf → d node + 1 < d j → ndf = nd0
  frameChild : ∀ (j : Nat) (nd0 ndf : Node), m.nodes[j]? = some nd0 →
    m'.nodes[j]? = some ndf → d j = d node + 1 → ndf.child = nd0.child
  newBackoff : ∀ (j : Nat), m.nodes.length ≤ j → j < m'.nodes.length →
    ∃ nd, m'.nodes[j]? = some nd ∧ nd.backoff.isSome
  rLt : r < m'.nodes.length
  rDepth : d' r = d node + 1
  found : findChildWithSymbol m'.nodes node symbol = some r

lemma growNode_spec :
    ∀ (fuel : Nat) (m : PPM) (d : Nat → Nat) (node symbol : Nat),
      PreWF m d → PathTotal m d (d node) → node < m.nodes.length →
      d node < fuel → 1 ≤ symbol → symbol < m.vocabSize →
      ∃ m' r d', growNode m node symbol fuel = some (m', r) ∧
        GrowOut m d node symbol m' r d' := by
  intro fuel
  induction fuel with
  | zero => intro m d node symbol _ _ _ h _ _; omega
  | succ f ih =>
    intro m d node symbol hw hpt hnlt hfuel hs1 hs2
    rcases exists_getElem?_of_lt hnlt with ⟨nd, hnode⟩
    have hnode0 : 0 < m.nodes.length := length_pos_of_preWF hw
    cases hfc : findChildWithSymbol m.nodes node symbol with
    | some c =>
      rcases findChildWithSymbol_spec hw hfc with ⟨cnd, hc, hcsym, hc0, hcd, _, _⟩
      refine ⟨bumpCount m c cnd, c, d, ?_, ?_⟩
      · simp only [growNode, hfc, hc]
      · have hlen : (bumpCount m c cnd).nodes.length = m.nodes.length := by
          simp [bumpCount]
        have hbget : ∀ (j : Nat), (bumpCount m c cnd).nodes[j]? =
            if j = c then some { cnd with count := cnd.count + 1 }
            else m.nodes[j]? := by
          intro j
          rcases eq_or_ne j c with rfl | hne
          · rw [if_pos rfl, bumpCount]
            simp only
            rw [List.getElem?_set, if_pos rfl, if_pos (lt_of_getElem?_some hc)]
          · rw [if_neg hne, bumpCount]
            simp only
            rw [List.getElem?_set_ne (Ne.symm hne)]
        refine ⟨preWF_bumpCount hw hc, rfl, rfl, rfl, le_of_eq hlen.symm,
          fun j _ => rfl, ?_, ?_, ?_, ?_, ?_, hcd, ?_⟩
        · intro j nd0 ndf h0 hf
          rw [hbget j] at hf
          rcases eq_or_ne j c with rfl | hne
          · rw [if_pos rfl] at hf
            cases hf
            rw [hc] at h0
            cases h0
            exact ⟨rfl, rfl, rfl, Nat.le_succ _⟩
          · rw [if_neg hne] at hf
            rw [h0] at hf
            cases hf
            exact ⟨rfl, rfl, rfl, le_refl _⟩
        · intro j nd0 ndf h0 hf hdj
          rw [hbget j] at hf
          have hne : j ≠ c := by
            intro hcon
            subst hcon
            omega
          rw [if_neg hne, h0] at hf
          cases hf
          rfl
        · intro j nd0 ndf h0 hf _
          rw [hbget j] at hf
          rcases eq_or_ne j c with rfl | hne
          · rw [if_pos rfl] at hf
            cases hf
            rw [hc] at h0
            cases h0
            rfl
          · rw [if_neg hne, h0] at hf
            cases hf
            rfl
        · intro j h1 h2
          rw [hlen] at h2
          omega
        · rw [hlen]
          exact lt_of_getElem?_some hc
        · have hle := findChildWithSymbol_congr
            (linksEq_set_count m.nodes c cnd (cnd.count + 1) hc) node symbol
          rw [bumpCount]
          simp only
          rw [← hle]
          exact hfc
    | none =>
      have hget1 := pushChild_nodes_getElem? hnode symbol
      have hlen1 := pushChild_length (m := m) node nd symbol
      have hpre1 := preWF_pushChild hw hnode hs1 hs2
      have hne_len : node ≠ m.nodes.length := by omega
      have hg1new : (pushChild m node nd symbol).nodes[m.nodes.length]? =
          some (freshNode nd symbol) := by
        rw [hget1 m.nodes.length, if_neg (Ne.symm hne_len), if_pos rfl]
      have hg1node : (pushChild m node nd symbol).nodes[node]? =
          some { nd with child := some m.nodes.length } := by
        rw [hget1 node, if_pos rfl]
      have hd1new : pushDepth m d node m.nodes.length = d node + 1 := by
        rw [pushDepth, if_pos rfl]
      have hd1old : ∀ (j : Nat), j < m.nodes.length →
          pushDepth m d node j = d j := by
        intro j hj
        rw [pushDepth, if_neg (by omega)]
      by_cases hroot : node = 0
      · -- node is the root: the fresh node's backoff is the root
        subst hroot
        have hdr : d 0 = 0 := hw.rootDepth
        refine ⟨setBackoff (pushChild m 0 nd symbol) m.nodes.length 0,
          m.nodes.length, pushDepth m d 0, ?_, ?_⟩
        · simp [growNode, hfc, hnode]
        · have hsb := setBackoff_eq hg1new 0
          have hget' : ∀ (j : Nat),
              (setBackoff (pushChild m 0 nd symbol) m.nodes.length 0).nodes[j]? =
              if j = m.nodes.length then
                some { freshNode nd symbol with backoff := some 0 }
              else (pushChild m 0 nd symbol).nodes[j]? := by
            intro j
            rw [hsb]
            simp only
            rcases eq_or_ne j m.nodes.length with rfl | hne
            · rw [if_pos rfl, List.getElem?_set, if_pos rfl,
                if_pos (lt_of_getElem?_some hg1new)]
            · rw [if_neg hne, List.getElem?_set_ne (Ne.symm hne)]
          have hlen' :
              (setBackoff (pushChild m 0 nd symbol) m.nodes.length 0).nodes.length =
              m.nodes.length + 1 := by
            rw [hsb]
            simp [hlen1]
          refine ⟨?_, ?_, ?_, ?_, ?_, ?_, ?_, ?_, ?_, ?_, ?_, hd1new, ?_⟩
          · rw [hsb]
            exact preWF_patch_backoff hpre1 hg1new (by omega)
              (by rw [hlen1]; omega)
              (by rw [hd1new, hd1old 0 hnode0, hdr])
          · rw [hsb]; rfl
          · rw [hsb]; rfl
          · rw [hsb]; rfl
          · rw [hlen']
            omega
          · intro j hj
            exact hd1old j hj
          · intro j nd0 ndf h0 hf
            rw [hget' j, if_neg (by have := lt_of_getElem?_some h0; omega)] at hf
            rw [hget1 j] at hf
            rcases eq_or_ne j 0 with rfl | hne
            · rw [if_pos rfl] at hf
              cases hf
              rw [hnode] at h0
              cases h0
              exact ⟨rfl, rfl, rfl, le_refl _⟩
            · rw [if_neg hne, if_neg (by have := lt_of_getElem?_some h0; omega),
                h0] at hf
              cases hf
              exact ⟨rfl, rfl, rfl, le_refl _⟩
          · intro j nd0 ndf h0 hf hdj
            rw [hdr] at hdj
            have hjlt := lt_of_getElem?_some h0
            rw [hget' j, if_neg (by omega), hget1 j,
              if_neg (by intro hcon; subst hcon; omega),
              if_neg (by omega), h0] at hf
            cases hf
            rfl
          · intro j nd0 ndf h0 hf hdj
            rw [hdr] at hdj
            have hjlt := lt_of_getElem?_some h0
            rw [hget' j, if_neg (by omega), hget1 j,
              if_neg (by intro hcon; subst hcon; omega),
              if_neg (by omega), h0] at hf
            cases hf
            rfl
          · intro j hj1 hj2
            rw [hlen'] at hj2
            have hj : j = m.nodes.length := by omega
            subst hj
            refine ⟨{ freshNode nd symbol with backoff := some 0 }, ?_, rfl⟩
            rw [hget' m.nodes.length, if_pos rfl]
          · rw [hlen']; omega
          · have hgn : (setBackoff (pushChild m 0 nd symbol) m.nodes.length 0).nodes[0]? =
                some { nd with child := some m.nodes.length } := by
              rw [hget' 0, if_neg (by omega), hg1node]
            have hgN : (setBackoff (pushChild m 0 nd symbol) m.nodes.length 0).nodes[m.nodes.length]? =
                some { freshNode nd symbol with backoff := some 0 } := by
              rw [hget' m.nodes.length, if_pos rfl]
            exact findChildWithSymbol_of_child_head hgn rfl hgN rfl
      · -- node is not the root: recurse along the backoff link
        have hbo : nd.backoff.isSome := hpt node nd hnode (by omega) (le_refl _)
        rcases Option.isSome_iff_exists.mp hbo with ⟨b, hb⟩
        rcases hw.backoffDepth node nd b hnode hb with ⟨hblt, hbd⟩
        have hd1b : pushDepth m d node b = d b := hd1old b hblt
        have hpt1 : PathTotal (pushChild m node nd symbol) (pushDepth m d node)
            (pushDepth m d node b) := by
          intro i ndi hi hi0 hile
          rw [hget1 i] at hi
          rcases eq_or_ne i node with rfl | hne
          · rw [if_pos rfl] at hi
            cases hi
            rw [hd1old i (lt_of_getElem?_some hnode), hd1b] at hile
            omega
          · rw [if_neg hne] at hi
            rcases eq_or_ne i m.nodes.length with rfl | hne2
            · rw [if_pos rfl] at hi
              rw [hd1new, hd1b] at hile
              omega
            · rw [if_neg hne2] at hi
              have hilt := lt_of_getElem?_some hi
              rw [hd1old i hilt, hd1b] at hile
              exact hpt i ndi hi hi0 (by omega)
        rcases ih (pushChild m node nd symbol) (pushDepth m d node) b symbol
            hpre1 hpt1 (by rw [hlen1]; omega) (by rw [hd1b]; omega) hs1
            (by rw [(pushChild_fields (m := m) node nd symbol).1]; exact hs2)
          with ⟨m2, r2, d2, heq2, o2⟩
        have hlen2 := o2.lenLe
        rw [hlen1] at hlen2
        have hnewlt2 : m.nodes.length < m2.nodes.length := by omega
        rcases exists_getElem?_of_lt hnewlt2 with ⟨ndN, hg2new⟩
        have hd1newgt : pushDepth m d node b + 1 < pushDepth m d node m.nodes.length := by
          rw [hd1new, hd1b]
          omega
        have hNfresh : ndN = freshNode nd symbol :=
          o2.frameHigh m.nodes.length (freshNode nd symbol) ndN hg1new hg2new hd1newgt
        subst hNfresh
        have hsb := setBackoff_eq hg2new r2
        refine ⟨setBackoff m2 m.nodes.length r2, m.nodes.length, d2, ?_, ?_⟩
        · simp only [growNode, hfc, hnode, if_neg hroot, hb, heq2]
        · have hget' : ∀ (j : Nat),
              (setBackoff m2 m.nodes.length r2).nodes[j]? =
              if j = m.nodes.length then
                some { freshNode nd symbol with backoff := some r2 }
              else m2.nodes[j]? := by
            intro j
            rw [hsb]
            simp only
            rcases eq_or_ne j m.nodes.length with rfl | hne
            · rw [if_pos rfl, List.getElem?_set, if_pos rfl,
                if_pos (lt_of_getElem?_some hg2new)]
            · rw [if_neg hne, List.getElem?_set_ne (Ne.symm hne)]
          have hlen' : (setBackoff m2 m.nodes.length r2).nodes.length =
              m2.nodes.length := by
            rw [hsb]
            simp
          have hd2new : d2 m.nodes.length = d node + 1 := by
            rw [o2.dExt m.nodes.length (by rw [hlen1]; omega), hd1new]
          have hd2r2 : d2 r2 = d node := by
            rw [o2.rDepth, hd1b]
            omega
          refine ⟨?_, ?_, ?_, ?_, ?_, ?_, ?_, ?_, ?_, ?_, ?_, hd2new, ?_⟩
          · rw [hsb]
            exact preWF_patch_backoff o2.pre hg2new (by omega) o2.rLt
              (by rw [hd2new, hd2r2])
          · rw [hsb]
            simp only
            rw [o2.sameVocab, (pushChild_fields (m := m) node nd symbol).1]
          · rw [hsb]
            simp only
            rw [o2.sameMax, (pushChild_fields (m := m) node nd symbol).2.1]
          · rw [hsb]
            simp only
            rw [o2.sameExcl, (pushChild_fields (m := m) node nd symbol).2.2]
          · rw [hlen']
            omega
          · intro j hj
            rw [o2.dExt j (by rw [hlen1]; omega), hd1old j hj]
          · intro j nd0 ndf h0 hf
            have hjlt := lt_of_getElem?_some h0
            rw [hget' j, if_neg (by omega)] at hf
            rcases eq_or_ne j node with rfl | hne
            · rw [hnode] at h0
              cases h0
              rcases o2.frameOld j _ ndf hg1node hf with ⟨e1, e2, e3, e4⟩
              exact ⟨e1, e2, e3, e4⟩
            · have h1j : (pushChild m node nd symbol).nodes[j]? = some nd0 := by
                rw [hget1 j, if_neg hne, if_neg (by omega)]
                exact h0
              exact o2.frameOld j nd0 ndf h1j hf
          · intro j nd0 ndf h0 hf hdj
            have hjlt := lt_of_getElem?_some h0
            have hne : j ≠ node := by
              intro hcon
              subst hcon
              omega
            rw [hget' j, if_neg (by omega)] at hf
            have h1j : (pushChild m node nd symbol).nodes[j]? = some nd0 := by
              rw [hget1 j, if_neg hne, if_neg (by omega)]
              exact h0
            refine o2.frameHigh j nd0 ndf h1j hf ?_
            rw [hd1b, hd1old j hjlt]
            omega
          · intro j nd0 ndf h0 hf hdj
            have hjlt := lt_of_getElem?_some h0
            have hne : j ≠ node := by
              intro hcon
              subst hcon
              omega
            rw [hget' j, if_neg (by omega)] at hf
            have h1j : (pushChild m node nd symbol).nodes[j]? = some nd0 := by
              rw [hget1 j, if_neg hne, if_neg (by omega)]
              exact h0
            have := o2.frameHigh j nd0 ndf h1j hf
              (by rw [hd1b, hd1old j hjlt]; omega)
            rw [this]
          · intro j hj1 hj2
            rw [hlen'] at hj2
            rcases eq_or_ne j m.nodes.length with rfl | hne
            · refine ⟨{ freshNode nd symbol with backoff := some r2 }, ?_, rfl⟩
              rw [hget' m.nodes.length, if_pos rfl]
            · have hj1' : (pushChild m node nd symbol).nodes.length ≤ j := by
                rw [hlen1]
                omega
              rcases o2.newBackoff j hj1' hj2 with ⟨ndj, hndj, hbk⟩
              refine ⟨ndj, ?_, hbk⟩
              rw [hget' j, if_neg hne]
              exact hndj
          · rw [hlen']
            omega
          · have hnode2 : ∃ ndn2, m2.nodes[node]? = some ndn2 := by
              refine exists_getElem?_of_lt ?_
              omega
            rcases hnode2 with ⟨ndn2, hndn2⟩
            have hch2 : ndn2.child = some m.nodes.length := by
              have := o2.frameChild node _ ndn2 hg1node hndn2
                (by rw [hd1old node hnlt, hd1b]; omega)
              rw [this]
            have hgn : (setBackoff m2 m.nodes.length r2).nodes[node]? =
                some ndn2 := by
              rw [hget' node, if_neg hne_len]
              exact hndn2
            have hgN : (setBackoff m2 m.nodes.length r2).nodes[m.nodes.length]? =
                some { freshNode nd symbol with backoff := some r2 } := by
              rw [hget' m.nodes.length, if_pos rfl]
            exact findChildWithSymbol_of_child_head hgn hch2 hgN rfl

/-! ## Invariant preservation for the two context operations -/

lemma wfd_of_growOut {m : PPM} {d : Nat → Nat} (hw : WFd m d)
    {node symbol : Nat} {m' : PPM} {r : Nat} {d' : Nat → Nat}
    (ho : GrowOut m d node symbol m' r d') : WFd m' d' := by
  refine ⟨ho.pre, ?_⟩
  intro i nd' hi hi0
  rcases Nat.lt_or_ge i m.nodes.length with hlt | hge
  · rcases exists_getElem?_of_lt hlt with ⟨nd0, h0⟩
    rcases ho.frameOld i nd0 nd' h0 hi with ⟨_, _, hbk, _⟩
    rw [hbk]
    exact hw.backoffTotal i nd0 h0 hi0
  · rcases ho.newBackoff i hge (lt_of_getElem?_some hi) with ⟨ndj, hj, hbk⟩
    rw [hi] at hj
    cases hj
    exact hbk

lemma backoffWhile_spec {m : PPM} {d : Nat → Nat} (hw : WFd m d) :
    ∀ (fuel : Nat) (h : Nat) (order : Int),
      h < m.nodes.length → order = (d h : Int) →
      (order - (m.maxOrder : Int)).toNat ≤ fuel →
      ∃ h' order', backoffWhile m (some h) order fuel = some (some h', order') ∧
        h' < m.nodes.length ∧ order' = (d h' : Int) ∧
        order' ≤ (m.maxOrder : Int) := by
  intro fuel
  induction fuel with
  | zero =>
    intro h order hlt hord hle
    have hng : ¬ ((m.maxOrder : Int) < order) := by omega
    exact ⟨h, order, by rw [backoffWhile, if_neg hng], hlt, hord, by omega⟩
  | succ f ihf =>
    intro h order hlt hord hle
    by_cases hgt : (m.maxOrder : Int) < order
    · have hd0 : 0 < d h := by omega
      obtain ⟨nd, hnd⟩ := exists_getElem?_of_lt hlt
      have hne : 0 < h := by
        rcases Nat.eq_zero_or_pos h with rfl | hp
        · rw [hw.rootDepth] at hd0
          omega
        · exact hp
      obtain ⟨b, hb⟩ := Option.isSome_iff_exists.mp (hw.backoffTotal h nd hnd hne)
      obtain ⟨hblt, hbd⟩ := hw.backoffDepth h nd b hnd hb
      obtain ⟨h', o', heq, h1, h2, h3⟩ :=
        ihf b (order - 1) hblt (by omega) (by omega)
      refine ⟨h', o', ?_, h1, h2, h3⟩
      rw [backoffWhile, if_pos hgt]
      simp only [hnd]
      rw [hb]
      exact heq
    · exact ⟨h, order, by rw [backoffWhile, if_neg hgt], hlt, hord, by omega⟩

lemma advanceLoop_spec {m : PPM} {d : Nat → Nat} (hw : WFd m d) (sym : Nat) :
    ∀ (fuel : Nat) (head : Option Nat) (order : Int),
      (∀ h, head = some h → h < m.nodes.length ∧ order = (d h : Int) ∧
        d h + 2 ≤ fuel) →
      (head = none → 1 ≤ fuel) →
      ∃ head' order', advanceLoop m sym head order fuel = some (head', order') ∧
        ∀ h', head' = some h' → h' < m.nodes.length ∧ order' = (d h' : Int) ∧
          order' ≤ (m.maxOrder : Int) := by
  intro fuel
  induction fuel with
  | zero =>
    intro head order hsome hnone
    cases head with
    | none => have := hnone rfl; omega
    | some h => have := (hsome h rfl).2.2; omega
  | succ f ihf =>
    intro head order hsome hnone
    cases head with
    | none =>
      refine ⟨none, order, rfl, ?_⟩
      intro h' hcon
      cases hcon
    | some h =>
      rcases hsome h rfl with ⟨hlt, hord, hfuel⟩
      obtain ⟨nd, hnd⟩ := exists_getElem?_of_lt hlt
      have hback : ∀ (bb : Option Nat), nd.backoff = bb →
          ∃ head' order', advanceLoop m sym bb (order - 1) f = some (head', order') ∧
          ∀ h', head' = some h' → h' < m.nodes.length ∧ order' = (d h' : Int) ∧
            order' ≤ (m.maxOrder : Int) := by
        intro bb hbb
        cases bb with
        | none =>
          refine ihf none (order - 1) ?_ ?_
          · intro x hcon; cases hcon
          · intro _; omega
        | some b =>
          obtain ⟨hblt, hbd⟩ := hw.backoffDepth h nd b hnd hbb
          refine ihf (some b) (order - 1) ?_ ?_
          · intro x hx
            cases hx
            exact ⟨hblt, by omega, by omega⟩
          · intro hcon; cases hcon
      by_cases hlt' : order < (m.maxOrder : Int)
      · cases hfc : findChildWithSymbol m.nodes h sym with
        | some c =>
          rcases findChildWithSymbol_spec hw.toPreWF hfc with
            ⟨cnd, hc, _, hc0, hcd, _, _⟩
          refine ⟨some c, order + 1, ?_, ?_⟩
          · simp only [advanceLoop, hnd]
            rw [if_pos hlt', hfc]
          · intro h' hh'
            cases hh'
            exact ⟨lt_of_getElem?_some hc, by omega, by omega⟩
        | none =>
          rcases hback nd.backoff rfl with ⟨head', order', heq, hpost⟩
          refine ⟨head', order', ?_, hpost⟩
          simp only [advanceLoop, hnd]
          rw [if_pos hlt', hfc]
          exact heq
      · rcases hback nd.backoff rfl with ⟨head', order', heq, hpost⟩
        refine ⟨head', order', ?_, hpost⟩
        simp only [advanceLoop, hnd]
        rw [if_neg hlt']
        exact heq

lemma wfd_init {n mo : Nat} (hn : 2 ≤ n) :
    WFd (PPM.init n mo) (fun _ => 0) := by
  have hg : ∀ (i : Nat) (nd : Node), (PPM.init n mo).nodes[i]? = some nd →
      i = 0 ∧ nd = Node.initial := by
    intro i nd h
    cases i with
    | zero =>
      simp only [PPM.init] at h
      refine ⟨rfl, ?_⟩
      simp at h
      exact h.symm
    | succ j =>
      simp [PPM.init] at h
  refine ⟨⟨?_, ?_, rfl, ?_, ?_, ?_, ?_, ?_, ?_, ?_, ?_, hn⟩, ?_⟩
  · simp [PPM.init]
  · intro nd h
    rw [(hg 0 nd h).2]
    rfl
  · intro i nd j h hn'
    rw [(hg i nd h).2] at hn'
    cases hn'
  · intro i nd c h hc
    rw [(hg i nd h).2] at hc
    cases hc
  · intro i nd b h hb
    rw [(hg i nd h).2] at hb
    cases hb
  · intro i nd c h hc
    rw [(hg i nd h).2] at hc
    cases hc
  · intro i nd j h hn'
    rfl
  · intro i hi
    simp [PPM.init]
  · intro i nd h
    rw [(hg i nd h).2]
    decide
  · intro i nd h hi
    rw [(hg i nd h).1] at hi
    omega
  · intro i nd h hi
    rw [(hg i nd h).1] at hi
    omega

lemma new_ok {n mo : Nat} {m : PPM} (h : PPM.new n mo = .ok m) :
    m = PPM.init n mo ∧ 2 ≤ n := by
  rw [PPM.new] at h
  by_cases hn : 1 < n
  · rw [if_pos hn] at h
    cases h
    exact ⟨rfl, by omega⟩
  · rw [if_neg hn] at h
    cases h

/-- Full success-and-preservation bundle of a learning advance with a valid
symbol on a well-formed state. -/
lemma observe_core {m : PPM} {ctx : Context} {d : Nat → Nat}
    (hw : WFd m d) (hc : CtxOK m d ctx) {y : Int}
    (h1 : 0 < y) (h2 : y < (m.vocabSize : Int)) :
    ∃ h m2 r d2 head2 order2,
      ctx.head = some h ∧
      growNode m h y.toNat m.nodes.length = some (m2, r) ∧
      findChildWithSymbol m2.nodes h y.toNat = some r ∧
      observeStep (m, ctx) y = .ok (m2, ⟨head2, order2⟩) ∧
      WFd m2 d2 ∧ CtxOK m2 d2 ⟨head2, order2⟩ ∧
      GrowOut m d h y.toNat m2 r d2 ∧
      m2.maxOrder = m.maxOrder := by
  rcases hc.headLt with ⟨h, hhead, hlt, hord⟩
  have hs1 : 1 ≤ y.toNat := by omega
  have hs2 : y.toNat < m.vocabSize := by omega
  have hpt : PathTotal m d (d h) := by
    intro i nd hi hi0 _
    exact hw.backoffTotal i nd hi hi0
  obtain ⟨m2, r, d2, heq, o2⟩ := growNode_spec m.nodes.length m d h y.toNat
    hw.toPreWF hpt hlt (hw.depthLt h hlt) hs1 hs2
  have hw2 : WFd m2 d2 := wfd_of_growOut hw o2
  have hrd : d2 r = d h + 1 := o2.rDepth
  have hmax2 : m2.maxOrder = m.maxOrder := o2.sameMax
  obtain ⟨h', o', hbw, hblt, hbord, hble⟩ :=
    backoffWhile_spec hw2 ((ctx.order + 1 - (m2.maxOrder : Int)).toNat) r
      (ctx.order + 1) o2.rLt (by rw [hrd]; omega) (le_refl _)
  refine ⟨h, m2, r, d2, some h', o', hhead, heq, o2.found, ?_, hw2,
    ⟨⟨h', rfl, hblt, hbord⟩, hble⟩, o2, hmax2⟩
  show addSymbolAndUpdate m ctx y = _
  rw [addSymbolAndUpdate, if_neg (by omega), if_neg (by omega), hhead]
  simp only [heq]
  rw [if_pos o2.found]
  simp only [hbw]

lemma observe_inv {s s' : PPM × Context} {sym : Int} (hinv : Inv s)
    (hstep : observeStep s sym = .ok s') : Inv s' := by
  obtain ⟨m, ctx⟩ := s
  rcases hinv with ⟨d, hw, hc⟩
  have hw' : WFd m d := hw
  have hc' : CtxOK m d ctx := hc
  by_cases hle : sym ≤ 0
  · rw [observeStep, addSymbolAndUpdate, if_pos hle] at hstep
    cases hstep
    exact ⟨d, hw, hc⟩
  · by_cases hge : (m.vocabSize : Int) ≤ sym
    · rw [observeStep, addSymbolAndUpdate, if_neg hle, if_pos hge] at hstep
      cases hstep
    · obtain ⟨h, m2, r, d2, head2, order2, _, _, _, hstep', hw2, hc2, _, _⟩ :=
        observe_core (y := sym) hw' hc' (by omega) (by omega)
      rw [hstep'] at hstep
      cases hstep
      exact ⟨d2, hw2, hc2⟩

lemma advance_inv {s s' : PPM × Context} {sym : Int} (hinv : Inv s)
    (hstep : advanceStep s sym = .ok s') : Inv s' := by
  obtain ⟨m, ctx⟩ := s
  rcases hinv with ⟨d, hw0, hc0⟩
  have hw : WFd m d := hw0
  have hc : CtxOK m d ctx := hc0
  by_cases hle : sym ≤ 0
  · rw [advanceStep, addSymbolToContext, if_pos hle] at hstep
    simp only [Except.map] at hstep
    cases hstep
    exact ⟨d, hw, hc⟩
  · by_cases hge : (m.vocabSize : Int) ≤ sym
    · rw [advanceStep, addSymbolToContext, if_neg hle, if_pos hge] at hstep
      simp only [Except.map] at hstep
      cases hstep
    · rcases hc.headLt with ⟨h, hhead, hlt, hord⟩
      obtain ⟨head', order', heq, hpost⟩ :=
        advanceLoop_spec hw sym.toNat (m.nodes.length + 1) ctx.head ctx.order
          (by
            intro x hx
            rw [hhead] at hx
            cases hx
            exact ⟨hlt, hord, by have := hw.depthLt h hlt; omega⟩)
          (by rw [hhead]; intro hcon; cases hcon)
      rw [advanceStep, addSymbolToContext, if_neg hle, if_neg hge, heq] at hstep
      cases head' with
      | none =>
        simp only [Except.map] at hstep
        cases hstep
        refine ⟨d, hw, ⟨0, rfl, length_pos_of_preWF hw.toPreWF, ?_⟩, by simp⟩
        rw [hw.rootDepth]
        rfl
      | some h' =>
        rcases hpost h' rfl with ⟨h1, h2, h3⟩
        simp only [Except.map] at hstep
        cases hstep
        exact ⟨d, hw, ⟨h', rfl, h1, h2⟩, h3⟩

lemma reachable_inv {s : PPM × Context} (hr : Reachable s) : Inv s := by
  induction hr with
  | init n mo m hnew =>
    rcases new_ok hnew with ⟨rfl, hn⟩
    refine ⟨fun _ => 0, wfd_init hn, ⟨0, rfl, by simp [PPM.init, createContext], ?_⟩,
      by simp [createContext]⟩
    simp [createContext]
  | observe s sym s' _ hstep ih => exact observe_inv ih hstep
  | advance s sym s' _ hstep ih => exact advance_inv ih hstep
  | fresh s _ ih =>
    rcases ih with ⟨d, hw, _⟩
    refine ⟨d, hw, ⟨0, rfl, length_pos_of_preWF hw.toPreWF, ?_⟩, by simp [createContext]⟩
    rw [hw.rootDepth]
    rfl

/-! ## Analysis of the probability estimation walk -/

lemma childMass_nonneg {gamma : ℚ} (hg : 0 ≤ gamma) {cnt : Nat}
    (hcnt : 1 ≤ cnt) (total : Nat) : 0 ≤ childMass gamma cnt total := by
  rw [childMass, knBeta, knAlpha]
  have h1 : (1 : ℚ) ≤ (cnt : ℚ) := by exact_mod_cast hcnt
  have h2 : (0 : ℚ) ≤ (total : ℚ) := by positivity
  have h3 : (0:ℚ) < (total : ℚ) + 49/100 := by linarith
  apply div_nonneg _ (le_of_lt h3)
  nlinarith

lemma childLoop_master {nodes : List Node} {n : Nat}
    (hnext : ∀ (i : Nat) (nd : Node) (j : Nat),
      nodes[i]? = some nd → nd.next = some j → j < i ∧ 0 < j)
    (hsym : ∀ (i : Nat) (nd : Node), nodes[i]? = some nd → 0 < i →
      1 ≤ nd.symbol ∧ nd.symbol < n)
    (hcount : ∀ (i : Nat) (nd : Node), nodes[i]? = some nd → 1 ≤ nd.count)
    (gamma : ℚ) (total : Nat) (hg : 0 ≤ gamma) :
    ∀ (fuel : Nat) (cur : Option Nat) (probs : List ℚ) (tm : ℚ)
      (mask : Option (List Bool)),
      (∀ j, cur = some j → 0 < j) →
      probs.length = n →
      probs[0]? = some 0 →
      (∀ (j : Nat) (q : ℚ), probs[j]? = some q → 0 ≤ q) →
      ((childLoop nodes gamma total cur (probs, tm, mask) fuel).1.length = n ∧
        (childLoop nodes gamma total cur (probs, tm, mask) fuel).1[0]? = some 0 ∧
        (∀ (j : Nat) (q : ℚ),
          (childLoop nodes gamma total cur (probs, tm, mask) fuel).1[j]? = some q → 0 ≤ q) ∧
        (childLoop nodes gamma total cur (probs, tm, mask) fuel).1.sum +
          (childLoop nodes gamma total cur (probs, tm, mask) fuel).2.1 = probs.sum + tm ∧
        tm - gamma * (totalChildrenFrom nodes mask cur fuel : ℚ) /
          ((total : ℚ) + knAlpha) ≤
          (childLoop nodes gamma total cur (probs, tm, mask) fuel).2.1) := by
  have hA : (0:ℚ) < (total : ℚ) + knAlpha := by
    rw [knAlpha]
    positivity
  intro fuel
  induction fuel with
  | zero =>
    intro cur probs tm mask _ h1 h2 h3
    have hc : childLoop nodes gamma total cur (probs, tm, mask) 0 = (probs, tm, mask) := by
      cases cur <;> rfl
    have ht : totalChildrenFrom nodes mask cur 0 = 0 := by
      cases cur <;> rfl
    rw [hc, ht]
    refine ⟨h1, h2, h3, rfl, ?_⟩
    simp
  | succ f ih =>
    intro cur probs tm mask hpos h1 h2 h3
    cases cur with
    | none =>
      have hc : childLoop nodes gamma total none (probs, tm, mask) (f + 1)
          = (probs, tm, mask) := rfl
      have ht : totalChildrenFrom nodes mask none (f + 1) = 0 := rfl
      rw [hc, ht]
      refine ⟨h1, h2, h3, rfl, by simp⟩
    | some i =>
      have hi0 : 0 < i := hpos i rfl
      cases hnd : nodes[i]? with
      | none =>
        have hc : childLoop nodes gamma total (some i) (probs, tm, mask) (f + 1)
            = (probs, tm, mask) := by
          simp only [childLoop, hnd]
        have ht : totalChildrenFrom nodes mask (some i) (f + 1) = 0 := by
          simp only [totalChildrenFrom, hnd]
        rw [hc, ht]
        refine ⟨h1, h2, h3, rfl, by simp⟩
      | some nd =>
        rcases hsym i nd hnd hi0 with ⟨hs1, hs2⟩
        have hcnt := hcount i nd hnd
        have hnextpos : ∀ j, nd.next = some j → 0 < j := by
          intro j hj
          exact (hnext i nd j hnd hj).2
        by_cases hfree : maskFree mask nd.symbol = true
        · have hp0 : 0 ≤ childMass gamma nd.count total :=
            childMass_nonneg hg hcnt total
          have hlen' : (addProb probs nd.symbol (childMass gamma nd.count total)).length = n := by
            rw [addProb_length, h1]
          have hzero' : (addProb probs nd.symbol (childMass gamma nd.count total))[0]? = some 0 := by
            rw [addProb_getElem?_ne _ _ (by omega), h2]
          have hnn' := addProb_nonneg (s := nd.symbol) h3 hp0
          have ihx := ih nd.next (addProb probs nd.symbol (childMass gamma nd.count total))
            (tm - childMass gamma nd.count total) (maskSet mask nd.symbol)
            hnextpos hlen' hzero' hnn'
          have heq : childLoop nodes gamma total (some i) (probs, tm, mask) (f + 1) =
              childLoop nodes gamma total nd.next
                (addProb probs nd.symbol (childMass gamma nd.count total),
                  tm - childMass gamma nd.count total, maskSet mask nd.symbol) f := by
            simp only [childLoop, hnd]
            rw [if_pos hfree]
          rw [heq]
          refine ⟨ihx.1, ihx.2.1, ihx.2.2.1, ?_, ?_⟩
          · rw [ihx.2.2.2.1, addProb_sum probs nd.symbol _ (by omega)]
            ring
          · have hbound := ihx.2.2.2.2
            have htc : totalChildrenFrom nodes mask (some i) (f + 1) =
                nd.count + totalChildrenFrom nodes mask nd.next f := by
              simp only [totalChildrenFrom, hnd]
              rw [if_pos hfree]
            rw [htc]
            have hmono : (totalChildrenFrom nodes (maskSet mask nd.symbol) nd.next f : ℚ)
                ≤ (totalChildrenFrom nodes mask nd.next f : ℚ) := by
              exact_mod_cast totalChildrenFrom_mask_mono nodes
                (fun t => maskFree_maskSet_mono) nd.next f
            have hb0 : (0:ℚ) ≤ knBeta := by rw [knBeta]; norm_num
            have hkey : childMass gamma nd.count total +
                gamma * (totalChildrenFrom nodes (maskSet mask nd.symbol) nd.next f : ℚ) /
                  ((total : ℚ) + knAlpha) ≤
                gamma * ((nd.count + totalChildrenFrom nodes mask nd.next f : Nat) : ℚ) /
                  ((total : ℚ) + knAlpha) := by
              rw [childMass, div_add_div_same]
              rw [div_le_div_iff hA hA]
              push_cast
              have hsum : (nd.count : ℚ) - knBeta +
                  (totalChildrenFrom nodes (maskSet mask nd.symbol) nd.next f : ℚ)
                  ≤ (nd.count : ℚ) + (totalChildrenFrom nodes mask nd.next f : ℚ) := by
                linarith
              have hXY := mul_le_mul_of_nonneg_left hsum hg
              nlinarith [mul_le_mul_of_nonneg_right hXY (le_of_lt hA)]
            linarith
        · have heq : childLoop nodes gamma total (some i) (probs, tm, mask) (f + 1) =
              childLoop nodes gamma total nd.next (probs, tm, mask) f := by
            simp only [childLoop, hnd]
            rw [if_neg hfree]
          have htc : totalChildrenFrom nodes mask (some i) (f + 1) =
              totalChildrenFrom nodes mask nd.next f := by
            simp only [totalChildrenFrom, hnd]
            rw [if_neg hfree]
            omega
          rw [heq, htc]
          exact ih nd.next probs tm mask hnextpos h1 h2 h3

lemma walkLoop_master {m : PPM} {d : Nat → Nat} (hw : WFd m d) :
    ∀ (fuel : Nat) (head : Option Nat) (probs : List ℚ) (tm : ℚ)
      (mask : Option (List Bool)),
      (∀ h, head = some h → h < m.nodes.length ∧ d h + 2 ≤ fuel) →
      (head = none → 1 ≤ fuel) →
      probs.length = m.vocabSize →
      probs[0]? = some 0 →
      (∀ (j : Nat) (q : ℚ), probs[j]? = some q → 0 ≤ q) →
      0 ≤ tm →
      ∃ probs' tm' mask',
        walkLoop m head (probs, tm, tm, mask) fuel = some (probs', tm', mask') ∧
        probs'.length = m.vocabSize ∧ probs'[0]? = some 0 ∧
        (∀ (j : Nat) (q : ℚ), probs'[j]? = some q → 0 ≤ q) ∧
        probs'.sum + tm' = probs.sum + tm ∧ 0 ≤ tm' := by
  intro fuel
  induction fuel with
  | zero =>
    intro head probs tm mask hsome hnone
    cases head with
    | none => have := hnone rfl; omega
    | some h => have := (hsome h rfl).2; omega
  | succ f ih =>
    intro head probs tm mask hsome hnone h1 h2 h3 htm
    cases head with
    | none =>
      refine ⟨probs, tm, mask, ?_, h1, h2, h3, rfl, htm⟩
      rfl
    | some h =>
      rcases hsome h rfl with ⟨hlt, hfuel⟩
      obtain ⟨nd, hnd⟩ := exists_getElem?_of_lt hlt
      have hbnext : ∀ (bb : Option Nat), nd.backoff = bb →
          (∀ hb, bb = some hb → hb < m.nodes.length ∧ d hb + 2 ≤ f) ∧
          (bb = none → 1 ≤ f) := by
        intro bb hbb
        cases bb with
        | none =>
          refine ⟨?_, ?_⟩
          · intro x hx
            cases hx
          · intro _
            omega
        | some b =>
          obtain ⟨hblt, hbd⟩ := hw.backoffDepth h nd b hnd hbb
          refine ⟨?_, by intro hcon; cases hcon⟩
          intro x hx
          cases hx
          exact ⟨hblt, by omega⟩
      have hA : (0:ℚ) < ((totalChildrenFrom m.nodes mask nd.child m.nodes.length : Nat) : ℚ) + knAlpha := by
        rw [knAlpha]
        positivity
      by_cases hcnt : 0 < totalChildrenFrom m.nodes mask nd.child m.nodes.length
      · have hchild := childLoop_master hw.nextLt hw.symbolOk hw.countPos tm
          (totalChildrenFrom m.nodes mask nd.child m.nodes.length) htm
          m.nodes.length nd.child probs tm mask
          (by
            intro j hj
            exact (hw.childLt h nd j hnd hj).2)
          h1 h2 h3
        set st := childLoop m.nodes tm
          (totalChildrenFrom m.nodes mask nd.child m.nodes.length) nd.child
          (probs, tm, mask) m.nodes.length with hst
        have htm' : 0 ≤ st.2.1 := by
          have hb := hchild.2.2.2.2
          have hkey : tm * ((totalChildrenFrom m.nodes mask nd.child m.nodes.length : Nat) : ℚ) /
              (((totalChildrenFrom m.nodes mask nd.child m.nodes.length : Nat) : ℚ) + knAlpha) ≤ tm := by
            rw [mul_div_assoc]
            apply mul_le_of_le_one_right htm
            rw [div_le_one hA]
            rw [knAlpha]
            linarith
          linarith
        obtain ⟨probs', tm', mask', heq, p1, p2, p3, p4, p5⟩ :=
          ih nd.backoff st.1 st.2.1 st.2.2 (hbnext nd.backoff rfl).1
            (hbnext nd.backoff rfl).2 hchild.1 hchild.2.1 hchild.2.2.1 htm'
        refine ⟨probs', tm', mask', ?_, p1, p2, p3, ?_, p5⟩
        · simp only [walkLoop, hnd]
          rw [if_pos hcnt]
          exact heq
        · rw [p4, hchild.2.2.2.1]
      · obtain ⟨probs', tm', mask', heq, p1, p2, p3, p4, p5⟩ :=
          ih nd.backoff probs tm mask (hbnext nd.backoff rfl).1
            (hbnext nd.backoff rfl).2 h1 h2 h3 htm
        refine ⟨probs', tm', mask', ?_, p1, p2, p3, p4, p5⟩
        simp only [walkLoop, hnd]
        rw [if_neg hcnt]
        exact heq

/-! ## Analysis of the two redistribution passes -/

lemma redistOne_get_not_mem (mask : Option (List Bool)) (u : Nat) (r : ℚ) :
    ∀ (L : List Nat) (probs : List ℚ) (tm : ℚ) (j : Nat), j ∉ L →
      (redistOne mask u r L (probs, tm)).1[j]? = probs[j]? := by
  intro L
  induction L with
  | nil => intro probs tm j _; rfl
  | cons i rest ih =>
    intro probs tm j hj
    have hji : i ≠ j := by
      intro hcon
      exact hj (hcon ▸ List.mem_cons_self i rest)
    have hjr : j ∉ rest := fun hc => hj (List.mem_cons_of_mem i hc)
    by_cases hfree : maskFree mask i = true
    · rw [redistOne, if_pos hfree, ih _ _ j hjr, addProb_getElem?_ne _ _ hji]
    · rw [redistOne, if_neg hfree, ih _ _ j hjr]

lemma redistOne_master (mask : Option (List Bool)) (u : Nat) (r : ℚ)
    (hr : 0 ≤ r) :
    ∀ (L : List Nat) (probs : List ℚ) (tm : ℚ),
      (∀ i ∈ L, 1 ≤ i ∧ i < probs.length) →
      ((redistOne mask u r L (probs, tm)).1.length = probs.length ∧
        (redistOne mask u r L (probs, tm)).1[0]? = probs[0]? ∧
        ((∀ (j : Nat) (q : ℚ), probs[j]? = some q → 0 ≤ q) →
          ∀ (j : Nat) (q : ℚ), (redistOne mask u r L (probs, tm)).1[j]? = some q → 0 ≤ q) ∧
        (redistOne mask u r L (probs, tm)).1.sum + (redistOne mask u r L (probs, tm)).2 =
          probs.sum + tm ∧
        (redistOne mask u r L (probs, tm)).2 =
          tm - ((L.filter (fun i => maskFree mask i)).length : ℚ) * (r / (u : ℚ))) := by
  intro L
  induction L with
  | nil =>
    intro probs tm _
    refine ⟨rfl, rfl, fun h => h, rfl, by simp [redistOne]⟩
  | cons i rest ih =>
    intro probs tm hmem
    rcases hmem i (List.mem_cons_self i rest) with ⟨hi1, hi2⟩
    have hmem' : ∀ x ∈ rest, 1 ≤ x ∧ x < (addProb probs i (r / (u : ℚ))).length := by
      intro x hx
      rw [addProb_length]
      exact hmem x (List.mem_cons_of_mem i hx)
    have hmem'' : ∀ x ∈ rest, 1 ≤ x ∧ x < probs.length := by
      intro x hx
      exact hmem x (List.mem_cons_of_mem i hx)
    by_cases hfree : maskFree mask i = true
    · have heq : redistOne mask u r (i :: rest) (probs, tm) =
          redistOne mask u r rest
            (addProb probs i (r / (u : ℚ)), tm - r / (u : ℚ)) := by
        rw [redistOne, if_pos hfree]
      rcases ih (addProb probs i (r / (u : ℚ))) (tm - r / (u : ℚ)) hmem' with
        ⟨e1, e2, e3, e4, e5⟩
      rw [heq]
      refine ⟨by rw [e1, addProb_length], ?_, ?_, ?_, ?_⟩
      · rw [e2, addProb_getElem?_ne _ _ (by omega)]
      · intro hnn
        exact e3 (addProb_nonneg (s := i) hnn (by positivity))
      · rw [e4, addProb_sum probs i _ hi2]
        ring
      · rw [e5, List.filter_cons_of_pos hfree, List.length_cons]
        push_cast
        ring
    · have heq : redistOne mask u r (i :: rest) (probs, tm) =
          redistOne mask u r rest (probs, tm) := by
        rw [redistOne, if_neg hfree]
      rcases ih probs tm hmem'' with ⟨e1, e2, e3, e4, e5⟩
      rw [heq]
      refine ⟨e1, e2, e3, e4, ?_⟩
      rw [e5, List.filter_cons_of_neg hfree]

lemma redistTwo_get_not_mem :
    ∀ (L : List Nat) (probs : List ℚ) (tm npm : ℚ) (left : Nat) (j : Nat),
      j ∉ L → (redistTwo L (probs, tm, npm, left)).1[j]? = probs[j]? := by
  intro L
  induction L with
  | nil => intro probs tm npm left j _; rfl
  | cons i rest ih =>
    intro probs tm npm left j hj
    have hji : i ≠ j := by
      intro hcon
      exact hj (hcon ▸ List.mem_cons_self i rest)
    have hjr : j ∉ rest := fun hc => hj (List.mem_cons_of_mem i hc)
    rw [redistTwo]
    rw [ih _ _ _ _ j hjr, addProb_getElem?_ne _ _ hji]

lemma redistTwo_master :
    ∀ (L : List Nat) (probs : List ℚ) (tm npm : ℚ),
      L.Nodup →
      (∀ i ∈ L, 1 ≤ i ∧ i < probs.length) →
      0 ≤ tm →
      ((redistTwo L (probs, tm, npm, L.length)).1.length = probs.length ∧
        (redistTwo L (probs, tm, npm, L.length)).1[0]? = probs[0]? ∧
        ((∀ (j : Nat) (q : ℚ), probs[j]? = some q → 0 ≤ q) →
          ∀ (j : Nat) (q : ℚ),
            (redistTwo L (probs, tm, npm, L.length)).1[j]? = some q → 0 ≤ q) ∧
        (redistTwo L (probs, tm, npm, L.length)).1.sum +
          (redistTwo L (probs, tm, npm, L.length)).2.1 = probs.sum + tm ∧
        (L ≠ [] → (redistTwo L (probs, tm, npm, L.length)).2.1 = 0) ∧
        (redistTwo L (probs, tm, npm, L.length)).2.2 = npm +
          ((L.map (fun i => (redistTwo L (probs, tm, npm, L.length)).1[i]?.getD 0)).sum)) := by
  intro L
  induction L with
  | nil =>
    intro probs tm npm _ _ _
    exact ⟨rfl, rfl, fun h => h, rfl, fun h => absurd rfl h, by simp [redistTwo]⟩
  | cons i rest ih =>
    intro probs tm npm hnd hmem htm
    rcases hmem i (List.mem_cons_self i rest) with ⟨hi1, hi2⟩
    have hlen : (i :: rest).length = rest.length + 1 := rfl
    have hpq : (0:ℚ) ≤ tm / ((rest.length + 1 : Nat) : ℚ) := by positivity
    have htm' : 0 ≤ tm - tm / ((rest.length + 1 : Nat) : ℚ) := by
      have h1 : tm / ((rest.length + 1 : Nat) : ℚ) ≤ tm := by
        apply div_le_self htm
        push_cast
        have : (0:ℚ) ≤ (rest.length : ℚ) := by positivity
        linarith
      linarith
    have heq : redistTwo (i :: rest) (probs, tm, npm, (i :: rest).length) =
        redistTwo rest
          (addProb probs i (tm / (((i :: rest).length : Nat) : ℚ)),
            tm - tm / (((i :: rest).length : Nat) : ℚ),
            npm + (addProb probs i (tm / (((i :: rest).length : Nat) : ℚ)))[i]?.getD 0,
            rest.length) := by
      rw [redistTwo]
      rfl
    have hmem' : ∀ x ∈ rest, 1 ≤ x ∧
        x < (addProb probs i (tm / (((i :: rest).length : Nat) : ℚ))).length := by
      intro x hx
      rw [addProb_length]
      exact hmem x (List.mem_cons_of_mem i hx)
    have hinotin : i ∉ rest := (List.nodup_cons.mp hnd).1
    rcases ih (addProb probs i (tm / (((i :: rest).length : Nat) : ℚ)))
        (tm - tm / (((i :: rest).length : Nat) : ℚ))
        (npm + (addProb probs i (tm / (((i :: rest).length : Nat) : ℚ)))[i]?.getD 0)
        (List.nodup_cons.mp hnd).2 hmem' (by exact_mod_cast htm') with
      ⟨e1, e2, e3, e4, e5, e6⟩
    rw [heq]
    refine ⟨by rw [e1, addProb_length], ?_, ?_, ?_, ?_, ?_⟩
    · rw [e2, addProb_getElem?_ne _ _ (by omega)]
    · intro hnn
      exact e3 (addProb_nonneg (s := i) hnn (by exact_mod_cast hpq))
    · rw [e4, addProb_sum probs i _ hi2]
      ring
    · intro _
      by_cases hrest : rest = []
      · subst hrest
        show tm - tm / (((i :: ([] : List Nat)).length : Nat) : ℚ) = 0
        simp
      · exact e5 hrest
    · rw [e6]
      simp only [List.map_cons, List.sum_cons]
      have hii : (redistTwo rest
          (addProb probs i (tm / (((i :: rest).length : Nat) : ℚ)),
            tm - tm / (((i :: rest).length : Nat) : ℚ),
            npm + (addProb probs i (tm / (((i :: rest).length : Nat) : ℚ)))[i]?.getD 0,
            rest.length)).1[i]? =
          (addProb probs i (tm / (((i :: rest).length : Nat) : ℚ)))[i]? := by
        exact redistTwo_get_not_mem rest _ _ _ _ i hinotin
      rw [hii]
      ring

/-! ## The main getProbs theorem -/

lemma getProbs_eq_of_walk {m : PPM} {ctx : Context} {probs1 : List ℚ}
    {tm1 : ℚ} {mask1 : Option (List Bool)}
    (hweq : walkLoop m ctx.head
      (List.replicate m.vocabSize 0, 1, 1,
        (if m.useExclusion then some (List.replicate m.vocabSize false) else none))
      (m.nodes.length + 1) = some (probs1, tm1, mask1))
    (htm : ¬ tm1 < 0) :
    getProbs m ctx =
      (if (redistTwo (realIdxs m.vocabSize)
            ((redistOne mask1 (numUnseenCount mask1 (realIdxs m.vocabSize)) tm1
                (realIdxs m.vocabSize) (probs1, tm1)).1,
              (redistOne mask1 (numUnseenCount mask1 (realIdxs m.vocabSize)) tm1
                (realIdxs m.vocabSize) (probs1, tm1)).2, 0, m.vocabSize - 1)).2.1 ≠ 0
        then .error "Expected remaining probability mass to be zero"
        else if ¬ (|1 - (redistTwo (realIdxs m.vocabSize)
            ((redistOne mask1 (numUnseenCount mask1 (realIdxs m.vocabSize)) tm1
                (realIdxs m.vocabSize) (probs1, tm1)).1,
              (redistOne mask1 (numUnseenCount mask1 (realIdxs m.vocabSize)) tm1
                (realIdxs m.vocabSize) (probs1, tm1)).2, 0, m.vocabSize - 1)).2.2| < epsilon)
        then .error "newProbMass out of epsilon"
        else .ok (redistTwo (realIdxs m.vocabSize)
            ((redistOne mask1 (numUnseenCount mask1 (realIdxs m.vocabSize)) tm1
                (realIdxs m.vocabSize) (probs1, tm1)).1,
              (redistOne mask1 (numUnseenCount mask1 (realIdxs m.vocabSize)) tm1
                (realIdxs m.vocabSize) (probs1, tm1)).2, 0, m.vocabSize - 1)).1) := by
  rw [getProbs]
  simp only [hweq]
  rw [if_neg htm]

lemma residualMass_eq_of_walk {m : PPM} {ctx : Context} {probs1 : List ℚ}
    {tm1 : ℚ} {mask1 : Option (List Bool)}
    (hweq : walkLoop m ctx.head
      (List.replicate m.vocabSize 0, 1, 1,
        (if m.useExclusion then some (List.replicate m.vocabSize false) else none))
      (m.nodes.length + 1) = some (probs1, tm1, mask1)) :
    residualMass m ctx =
      some (redistTwo (realIdxs m.vocabSize)
        ((redistOne mask1 (numUnseenCount mask1 (realIdxs m.vocabSize)) tm1
            (realIdxs m.vocabSize) (probs1, tm1)).1,
          (redistOne mask1 (numUnseenCount mask1 (realIdxs m.vocabSize)) tm1
            (realIdxs m.vocabSize) (probs1, tm1)).2, 0, m.vocabSize - 1)).2.1 := by
  rw [residualMass]
  simp only [hweq]

lemma replicate_getElem?_nonneg (n : Nat) :
    ∀ (j : Nat) (q : ℚ), (List.replicate n (0:ℚ))[j]? = some q → 0 ≤ q := by
  intro j q hq
  rw [List.getElem?_replicate] at hq
  by_cases hj : j < n
  · rw [if_pos hj] at hq
    simp only [Option.some.injEq] at hq
    exact le_of_eq hq
  · rw [if_neg hj] at hq
    cases hq

lemma getProbs_ok {m : PPM} {ctx : Context} {d : Nat → Nat}
    (hw : WFd m d) (hc : CtxOK m d ctx) :
    ∃ probs, getProbs m ctx = .ok probs ∧ probs.length = m.vocabSize ∧
      probs[0]? = some 0 ∧ (∀ (j : Nat) (q : ℚ), probs[j]? = some q → 0 ≤ q) ∧
      (probs.drop 1).sum = 1 ∧ residualMass m ctx = some 0 := by
  rcases hc.headLt with ⟨h, hhead, hlt, _⟩
  have hn2 : 2 ≤ m.vocabSize := hw.vocabGe
  have hr0 : (List.replicate m.vocabSize (0:ℚ)).length = m.vocabSize := by simp
  have hr1 : (List.replicate m.vocabSize (0:ℚ))[0]? = some 0 := by
    rw [List.getElem?_replicate, if_pos (by omega)]
  have hr3 : (List.replicate m.vocabSize (0:ℚ)).sum = 0 := by
    simp
  obtain ⟨probs1, tm1, mask1, hweq, w1, w2, w3, w4, w5⟩ :=
    walkLoop_master hw (m.nodes.length + 1) ctx.head (List.replicate m.vocabSize 0) 1
      (if m.useExclusion then some (List.replicate m.vocabSize false) else none)
      (by
        intro x hx
        rw [hhead] at hx
        cases hx
        exact ⟨hlt, by have := hw.depthLt h hlt; omega⟩)
      (by intro _; omega)
      hr0 hr1 (replicate_getElem?_nonneg m.vocabSize) (by norm_num)
  rw [hr3] at w4
  have hbound1 : ∀ i ∈ realIdxs m.vocabSize, 1 ≤ i ∧ i < probs1.length := by
    intro i hi
    rcases mem_realIdxs.mp hi with ⟨h1, h2⟩
    omega
  obtain ⟨o1, o2, o3, o4, o5⟩ :=
    redistOne_master mask1 (numUnseenCount mask1 (realIdxs m.vocabSize)) tm1 w5
      (realIdxs m.vocabSize) probs1 tm1 hbound1
  set st1 := redistOne mask1 (numUnseenCount mask1 (realIdxs m.vocabSize)) tm1
    (realIdxs m.vocabSize) (probs1, tm1) with hst1
  have htm2 : st1.2 = 0 ∨ st1.2 = tm1 := by
    rw [o5]
    by_cases hu : numUnseenCount mask1 (realIdxs m.vocabSize) = 0
    · right
      have hf : ((realIdxs m.vocabSize).filter
          (fun i => maskFree mask1 i)).length = 0 := hu
      rw [hf]
      push_cast
      ring
    · left
      have hf : (((realIdxs m.vocabSize).filter
          (fun i => maskFree mask1 i)).length : ℚ) =
          ((numUnseenCount mask1 (realIdxs m.vocabSize) : Nat) : ℚ) := rfl
      rw [hf, mul_comm, div_mul_cancel₀]
      · ring
      · exact_mod_cast hu
  have htm2' : 0 ≤ st1.2 := by
    rcases htm2 with h0 | h0
    · rw [h0]
    · rw [h0]
      exact w5
  have hbound2 : ∀ i ∈ realIdxs m.vocabSize, 1 ≤ i ∧ i < st1.1.length := by
    intro i hi
    rcases mem_realIdxs.mp hi with ⟨h1, h2⟩
    rw [o1]
    omega
  obtain ⟨q1, q2, q3, q4, q5, q6⟩ :=
    redistTwo_master (realIdxs m.vocabSize) st1.1 st1.2 0 (realIdxs_nodup _)
      hbound2 htm2'
  rw [realIdxs_length] at q1 q2 q3 q4 q5 q6
  have hLne : realIdxs m.vocabSize ≠ [] := by
    apply List.ne_nil_of_mem (a := 1)
    exact mem_realIdxs.mpr ⟨le_refl 1, by omega⟩
  have hq5 := q5 hLne
  set st2 := redistTwo (realIdxs m.vocabSize) (st1.1, st1.2, 0, m.vocabSize - 1)
    with hst2
  have hsum2 : st2.1.sum = 1 := by
    have h4 := q4
    rw [hq5] at h4
    have h5 := o4
    have h6 := w4
    linarith
  have hlen2 : st2.1.length = m.vocabSize := by
    rw [q1, o1, w1]
  have hzero2 : st2.1[0]? = some 0 := by
    rw [q2, o2, w2]
  have hdrop2 : (st2.1.drop 1).sum = 1 := by
    have hne : st2.1 ≠ [] := by
      intro hcon
      have := congrArg List.length hcon
      rw [hlen2] at this
      simp at this
      omega
    have := sum_drop_one st2.1 hne
    rw [hsum2, hzero2] at this
    simp only [Option.getD_some] at this
    linarith
  have hnpm : st2.2.2 = 1 := by
    rw [q6]
    have hmapeq : ((realIdxs m.vocabSize).map (fun i => st2.1[i]?.getD 0)).sum
        = (st2.1.drop 1).sum := sum_map_realIdxs_getD st2.1 hlen2
    rw [hmapeq, hdrop2]
    ring
  have hnn2 : ∀ (j : Nat) (q : ℚ), st2.1[j]? = some q → 0 ≤ q :=
    q3 (o3 w3)
  refine ⟨st2.1, ?_, hlen2, hzero2, hnn2, hdrop2, ?_⟩
  · rw [getProbs_eq_of_walk hweq (not_lt.mpr w5)]
    rw [← hst1, ← hst2, if_neg (by rw [hq5]; exact fun hcon => hcon rfl)]
    rw [if_neg ?_]
    rw [hnpm]
    intro hcon
    apply hcon
    rw [epsilon]
    norm_num
  · rw [residualMass_eq_of_walk hweq, ← hst1, ← hst2, hq5]

/-! ## Pointwise computation for the untrained model -/

lemma walk_init (n mo : Nat) :
    walkLoop (PPM.init n mo) (some 0)
      (List.replicate n (0:ℚ), 1, 1, none) ((PPM.init n mo).nodes.length + 1) =
      some (List.replicate n (0:ℚ), 1, none) := rfl

lemma redistOne_get_mem_none (u : Nat) (r : ℚ) :
    ∀ (L : List Nat) (probs : List ℚ) (tm : ℚ) (i : Nat), L.Nodup → i ∈ L →
      i < probs.length →
      (redistOne none u r L (probs, tm)).1[i]? =
        some (probs[i]?.getD 0 + r / (u : ℚ)) := by
  intro L
  induction L with
  | nil =>
    intro probs tm i _ hmem _
    cases hmem
  | cons j rest ih =>
    intro probs tm i hnd hmem hilt
    have hfree : maskFree none j = true := rfl
    have heq : redistOne none u r (j :: rest) (probs, tm) =
        redistOne none u r rest (addProb probs j (r / (u : ℚ)), tm - r / (u : ℚ)) := by
      rw [redistOne, if_pos hfree]
    rw [heq]
    rcases eq_or_ne i j with rfl | hne
    · have hnotin : i ∉ rest := (List.nodup_cons.mp hnd).1
      rw [redistOne_get_not_mem none u r rest _ _ i hnotin,
        addProb_getElem?_self probs i _ hilt]
    · have hin : i ∈ rest := by
        rcases List.mem_cons.mp hmem with hcon | hin
        · exact absurd hcon hne
        · exact hin
      rw [ih (addProb probs j (r / (u : ℚ))) _ i (List.nodup_cons.mp hnd).2 hin
        (by rw [addProb_length]; omega),
        addProb_getElem?_ne _ _ (Ne.symm hne)]

lemma redistTwo_zero_tm :
    ∀ (L : List Nat) (probs : List ℚ) (npm : ℚ) (leftSymbols : Nat),
      (∀ i ∈ L, i < probs.length) →
      (redistTwo L (probs, 0, npm, leftSymbols)).1 = probs := by
  intro L
  induction L with
  | nil => intro probs npm left _; rfl
  | cons i rest ih =>
    intro probs npm left hmem
    have hi : i < probs.length := hmem i (List.mem_cons_self i rest)
    have hz : (0:ℚ) / ((left : Nat) : ℚ) = 0 := zero_div _
    have haddz : addProb probs i ((0:ℚ) / ((left : Nat) : ℚ)) = probs := by
      rw [addProb, hz]
      exact set_getD_self probs i hi
    have heq : redistTwo (i :: rest) (probs, 0, npm, left) =
        redistTwo rest (addProb probs i ((0:ℚ) / ((left : Nat) : ℚ)),
          0 - 0 / ((left : Nat) : ℚ),
          npm + (addProb probs i ((0:ℚ) / ((left : Nat) : ℚ)))[i]?.getD 0,
          left - 1) := by
      rw [redistTwo]
    rw [heq, haddz]
    have hz2 : (0:ℚ) - 0 / ((left : Nat) : ℚ) = 0 := by
      rw [hz]
      ring
    rw [hz2]
    apply ih
    intro x hx
    exact hmem x (List.mem_cons_of_mem i hx)

/-! ## Claims -/

/-- C1: for every model and reachable Context, `getProbs` succeeds, the
returned array has length `vocabularySize`, its entries at indices 1 through
`vocabularySize - 1` sum to exactly 1 (in exact rational arithmetic, hence
within any positive epsilon), and the residual unassigned mass after the
final two-pass redistribution is exactly 0. -/
theorem claim_c1 (m : PPM) (ctx : Context) (hr : Reachable (m, ctx)) :
    ∃ probs, getProbs m ctx = .ok probs ∧ probs.length = m.vocabSize ∧
      (probs.drop 1).sum = 1 ∧ residualMass m ctx = some 0 := by
  rcases reachable_inv hr with ⟨d, hw, hc⟩
  rcases getProbs_ok hw hc with ⟨probs, h1, h2, _, _, h5, h6⟩
  exact ⟨probs, h1, h2, h5, h6⟩

theorem claim_c1_witness :
    Reachable (PPM.init 2 1, createContext (PPM.init 2 1)) ∧
    ∃ probs, getProbs (PPM.init 2 1) (createContext (PPM.init 2 1)) = .ok probs ∧
      probs.length = (PPM.init 2 1).vocabSize ∧ (probs.drop 1).sum = 1 ∧
      residualMass (PPM.init 2 1) (createContext (PPM.init 2 1)) = some 0 :=
  have hr : Reachable (PPM.init 2 1, createContext (PPM.init 2 1)) :=
    Reachable.init 2 1 (PPM.init 2 1) rfl
  ⟨hr, claim_c1 (PPM.init 2 1) (createContext (PPM.init 2 1)) hr⟩

/-- C2: `addSymbolToNode_` behaves exactly as specified.  If `node` already
has a child for `symbol`, exactly that child's count is incremented by 1 and
it is returned, no node is created (length unchanged) and every other arena
entry is untouched.  Otherwise a new child with count 1 is created and
linked as the leftmost child of `node`; its backoff is the root when `node`
is the root, and otherwise is the node obtained by recursively applying the
growth to `node`'s backoff on the updated arena. -/
theorem claim_c2 (m : PPM) (node symbol fuel : Nat) :
    (∀ (c : Nat) (cnd : Node), findChildWithSymbol m.nodes node symbol = some c →
      m.nodes[c]? = some cnd →
      growNode m node symbol (fuel + 1) = some (bumpCount m c cnd, c) ∧
      (bumpCount m c cnd).nodes = m.nodes.set c { cnd with count := cnd.count + 1 } ∧
      (bumpCount m c cnd).nodes.length = m.nodes.length ∧
      (∀ (j : Nat), j ≠ c → (bumpCount m c cnd).nodes[j]? = m.nodes[j]?)) ∧
    (∀ (nd : Node), findChildWithSymbol m.nodes node symbol = none →
      m.nodes[node]? = some nd →
      ((pushChild m node nd symbol).nodes[m.nodes.length]? =
        some { child := none, next := nd.child, backoff := none, count := 1,
               symbol := symbol } ∧
       (pushChild m node nd symbol).nodes[node]? =
        some { nd with child := some m.nodes.length }) ∧
      (node = 0 →
        growNode m node symbol (fuel + 1) =
          some (setBackoff (pushChild m node nd symbol) m.nodes.length 0,
            m.nodes.length)) ∧
      (∀ (b : Nat), node ≠ 0 → nd.backoff = some b →
        growNode m node symbol (fuel + 1) =
          (match growNode (pushChild m node nd symbol) b symbol fuel with
           | none => none
           | some (m2, bNode) =>
             some (setBackoff m2 m.nodes.length bNode, m.nodes.length)))) := by
  constructor
  · intro c cnd hfc hc
    refine ⟨?_, rfl, by simp [bumpCount], ?_⟩
    · simp only [growNode, hfc, hc]
    · intro j hj
      rw [bumpCount]
      simp only
      rw [List.getElem?_set_ne (Ne.symm hj)]
  · intro nd hfc hnode
    have hg := pushChild_nodes_getElem? hnode symbol
    have hnlt : node < m.nodes.length := lt_of_getElem?_some hnode
    refine ⟨⟨?_, ?_⟩, ?_, ?_⟩
    · rw [hg m.nodes.length, if_neg (by omega), if_pos rfl]
      rfl
    · rw [hg node, if_pos rfl]
    · intro h0
      subst h0
      simp [growNode, hfc, hnode]
    · intro b hne hb
      simp only [growNode, hfc, hnode]
      rw [if_neg hne, hb]

theorem claim_c2_witness :
    findChildWithSymbol (PPM.init 3 2).nodes 0 1 = none ∧
    growNode (PPM.init 3 2) 0 1 1 =
      some (setBackoff (pushChild (PPM.init 3 2) 0 Node.initial 1)
        (PPM.init 3 2).nodes.length 0, (PPM.init 3 2).nodes.length) :=
  ⟨rfl, ((claim_c2 (PPM.init 3 2) 0 1 0).2 Node.initial rfl rfl).2.1 rfl⟩

/-- C3: for every reachable Context, every entry of `getProbs` is
non-negative; and the per-child mass of the backoff walk equals the
specification's `gamma * max(count - beta, 0) / (total + alpha)` (and is
non-negative) whenever the child count is at least 1, because the count
never drops below 1 so the discount never goes negative. -/
theorem claim_c3 (m : PPM) (ctx : Context) (hr : Reachable (m, ctx)) :
    (∃ probs, getProbs m ctx = .ok probs ∧
      ∀ (j : Nat) (q : ℚ), probs[j]? = some q → 0 ≤ q) ∧
    (∀ (gamma : ℚ) (cnt total : Nat), 1 ≤ cnt → 0 ≤ gamma →
      childMass gamma cnt total =
        gamma * max ((cnt : ℚ) - knBeta) 0 / ((total : ℚ) + knAlpha) ∧
      0 ≤ childMass gamma cnt total) := by
  constructor
  · rcases reachable_inv hr with ⟨d, hw, hc⟩
    rcases getProbs_ok hw hc with ⟨probs, h1, _, _, h3, _, _⟩
    exact ⟨probs, h1, h3⟩
  · intro gamma cnt total hcnt hg
    constructor
    · rw [childMass, max_eq_left]
      rw [knBeta]
      have h1 : (1:ℚ) ≤ (cnt : ℚ) := by exact_mod_cast hcnt
      linarith
    · exact childMass_nonneg hg hcnt total

theorem claim_c3_witness :
    (∃ probs, getProbs (PPM.init 2 1) (createContext (PPM.init 2 1)) = .ok probs ∧
      ∀ (j : Nat) (q : ℚ), probs[j]? = some q → 0 ≤ q) ∧
    (childMass 1 1 0 = 1 * max (((1:Nat) : ℚ) - knBeta) 0 / (((0:Nat) : ℚ) + knAlpha) ∧
      0 ≤ childMass 1 1 0) :=
  have h := claim_c3 (PPM.init 2 1) (createContext (PPM.init 2 1))
    (Reachable.init 2 1 (PPM.init 2 1) rfl)
  ⟨h.1, h.2 1 1 0 (le_refl 1) (by norm_num)⟩

/-- C4 (refutation; the code contradicts the reserved-index design): the
source `Vocabulary` constructor initialises `symbols_` to the empty array
and never reserves a sentinel entry, so the very first character ever added
receives index 0 — the index the model reserves for the root (both lookup
and insertion return 0 for it).  Such a character is then silently dropped
by `addSymbolAndUpdate`/`addSymbolToContext` through their
`symbol <= vocab.rootSymbol` guard. -/
theorem claim_c4_first_symbol_gets_root_index :
    (Vocabulary.empty.addSymbol "A").2 = 0 ∧
    ((Vocabulary.empty.addSymbol "A").1.getSymbolIndex "A") = 0 ∧
    Vocabulary.empty.size = 0 := by
  refine ⟨rfl, ?_, rfl⟩
  rw [Vocabulary.getSymbolIndex]
  rw [if_pos (by decide)]
  rfl

/-- C5: the non-learning advance never changes the trie: the model
component of the state, in particular its node arena (all counts and all
child, sibling and backoff links) and its node counter, is returned
unchanged by every successful `addSymbolToContext` step.  This mirrors the
source method, which writes only the two fields of the context. -/
theorem claim_c5 (s : PPM × Context) (sym : Int) (s' : PPM × Context)
    (h : advanceStep s sym = .ok s') :
    s'.1 = s.1 ∧ s'.1.nodes = s.1.nodes ∧ s'.1.numNodes = s.1.numNodes := by
  rw [advanceStep] at h
  cases hres : addSymbolToContext s.1 s.2 sym with
  | error e =>
    rw [hres] at h
    simp only [Except.map] at h
    cases h
  | ok c =>
    rw [hres] at h
    simp only [Except.map] at h
    cases h
    exact ⟨rfl, rfl, rfl⟩

theorem claim_c5_witness :
    advanceStep (PPM.init 2 1, createContext (PPM.init 2 1)) 1 =
      .ok (PPM.init 2 1, ⟨some 0, 0⟩) ∧
    ((PPM.init 2 1, (⟨some 0, 0⟩ : Context)).1 =
      (PPM.init 2 1, createContext (PPM.init 2 1)).1) :=
  ⟨rfl, (claim_c5 (PPM.init 2 1, createContext (PPM.init 2 1)) 1
    (PPM.init 2 1, ⟨some 0, 0⟩) rfl).1⟩

/-- C6: after every successful `observe` (`addSymbolAndUpdate`) on a
reachable state, the context order is at most `maxOrder`: whenever the
grown node's order exceeds it, the trailing while loop backs the head off
(without growing) until the order is within bounds. -/
theorem claim_c6 (s : PPM × Context) (sym : Int) (s' : PPM × Context)
    (hr : Reachable s) (h : observeStep s sym = .ok s') :
    s'.2.order ≤ (s'.1.maxOrder : Int) := by
  have hr' : Reachable s' := Reachable.observe s sym s' hr h
  rcases reachable_inv hr' with ⟨d, _, hc⟩
  exact hc.orderLe

theorem claim_c6_witness :
    observeStep (PPM.init 2 1, createContext (PPM.init 2 1)) 1 =
      .ok ({ vocabSize := 2, maxOrder := 1,
             nodes := [{ child := some 1, next := none, backoff := none,
                         count := 1, symbol := 0 },
                       { child := none, next := none, backoff := some 0,
                         count := 1, symbol := 1 }],
             numNodes := 2, useExclusion := false }, ⟨some 1, 1⟩) ∧
    ((⟨some 1, 1⟩ : Context).order ≤
      ((({ vocabSize := 2, maxOrder := 1,
           nodes := [{ child := some 1, next := none, backoff := none,
                       count := 1, symbol := 0 },
                     { child := none, next := none, backoff := some 0,
                       count := 1, symbol := 1 }],
           numNodes := 2, useExclusion := false } : PPM)).maxOrder : Int)) :=
  ⟨rfl, claim_c6 (PPM.init 2 1, createContext (PPM.init 2 1)) 1 _
    (Reachable.init 2 1 (PPM.init 2 1) rfl) rfl⟩

/-- C7: on a model that has observed nothing beyond construction,
`getProbs(createContext())` is the uniform distribution over real symbols:
index 0 gets 0 and every index `1 ≤ i < n` gets `1 / (n - 1)`. -/
theorem claim_c7 (n mo : Nat) (hn : 2 ≤ n) :
    ∃ probs, getProbs (PPM.init n mo) (createContext (PPM.init n mo)) = .ok probs ∧
      probs.length = n ∧ probs[0]? = some 0 ∧
      ∀ (i : Nat), 1 ≤ i → i < n → probs[i]? = some (1 / ((n:ℚ) - 1)) := by
  have hvs : (PPM.init n mo).vocabSize = n := rfl
  obtain ⟨probs, hok, hlen, hzero, _, _, _⟩ :=
    getProbs_ok (wfd_init hn)
      (⟨⟨0, rfl, by simp [PPM.init], rfl⟩, by simp [createContext]⟩ :
        CtxOK (PPM.init n mo) (fun _ => 0) (createContext (PPM.init n mo)))
  have hweq : walkLoop (PPM.init n mo) (createContext (PPM.init n mo)).head
      (List.replicate (PPM.init n mo).vocabSize 0, 1, 1,
        (if (PPM.init n mo).useExclusion then
          some (List.replicate (PPM.init n mo).vocabSize false) else none))
      ((PPM.init n mo).nodes.length + 1) =
      some (List.replicate n (0:ℚ), 1, none) := walk_init n mo
  have heqG := getProbs_eq_of_walk hweq (by norm_num)
  have hcomb := hok.symm.trans heqG
  split at hcomb
  · cases hcomb
  · split at hcomb
    · cases hcomb
    · have hprobs : probs = (redistTwo (realIdxs (PPM.init n mo).vocabSize)
          ((redistOne none (numUnseenCount none (realIdxs (PPM.init n mo).vocabSize)) 1
              (realIdxs (PPM.init n mo).vocabSize) (List.replicate n 0, 1)).1,
            (redistOne none (numUnseenCount none (realIdxs (PPM.init n mo).vocabSize)) 1
              (realIdxs (PPM.init n mo).vocabSize) (List.replicate n 0, 1)).2, 0,
            (PPM.init n mo).vocabSize - 1)).1 := by
        injection hcomb
      have hfeq : (realIdxs n).filter (fun i => maskFree none i) = realIdxs n :=
        List.filter_eq_self.mpr (fun a _ => rfl)
      have hu : numUnseenCount none (realIdxs (PPM.init n mo).vocabSize) = n - 1 := by
        rw [hvs, numUnseenCount, hfeq, realIdxs_length]
      obtain ⟨o1, o2, o3, o4, o5⟩ :=
        redistOne_master none (numUnseenCount none (realIdxs (PPM.init n mo).vocabSize))
          1 (by norm_num) (realIdxs (PPM.init n mo).vocabSize) (List.replicate n 0) 1
          (by
            intro i hi
            rw [hvs] at hi
            rcases mem_realIdxs.mp hi with ⟨h1, h2⟩
            simp only [List.length_replicate]
            omega)
      have hfilter : ((realIdxs (PPM.init n mo).vocabSize).filter
          (fun i => maskFree none i)).length = n - 1 := by
        rw [hvs, hfeq, realIdxs_length]
      have hn1 : ((n - 1 : Nat) : ℚ) ≠ 0 := by
        have : (1:Nat) ≤ n - 1 := by omega
        exact_mod_cast Nat.one_le_iff_ne_zero.mp this
      have hst12 : (redistOne none (numUnseenCount none (realIdxs (PPM.init n mo).vocabSize)) 1
          (realIdxs (PPM.init n mo).vocabSize) (List.replicate n 0, 1)).2 = 0 := by
        rw [o5, hfilter, hu, mul_one_div, div_self hn1]
        ring
      have hzt : probs = (redistOne none
          (numUnseenCount none (realIdxs (PPM.init n mo).vocabSize)) 1
          (realIdxs (PPM.init n mo).vocabSize) (List.replicate n 0, 1)).1 := by
        rw [hprobs, hst12]
        apply redistTwo_zero_tm
        intro i hi
        rw [hvs] at hi
        rcases mem_realIdxs.mp hi with ⟨h1, h2⟩
        rw [o1]
        simp only [List.length_replicate]
        omega
      refine ⟨probs, hok, by rw [hlen, hvs], hzero, ?_⟩
      intro i h1 h2
      rw [hzt, redistOne_get_mem_none _ 1 (realIdxs (PPM.init n mo).vocabSize)
        (List.replicate n 0) 1 i (by rw [hvs]; exact realIdxs_nodup n)
        (by rw [hvs]; exact mem_realIdxs.mpr ⟨h1, h2⟩)
        (by simp only [List.length_replicate]; omega)]
      rw [List.getElem?_replicate, if_pos h2, hu]
      have hcast : ((n - 1 : Nat) : ℚ) = (n : ℚ) - 1 := by
        push_cast [Nat.cast_sub (by omega : 1 ≤ n)]
        ring
      rw [hcast]
      norm_num

theorem claim_c7_witness :
    2 ≤ 3 ∧
    ∃ probs, getProbs (PPM.init 3 2) (createContext (PPM.init 3 2)) = .ok probs ∧
      probs.length = 3 ∧ probs[0]? = some 0 ∧
      ∀ (i : Nat), 1 ≤ i → i < 3 → probs[i]? = some (1 / ((3:ℚ) - 1)) :=
  ⟨by norm_num, claim_c7 3 2 (by norm_num)⟩

/-- C8: for both operations, a symbol index at or below the root sentinel 0
is a silent no-op leaving both the Context and the trie unchanged, and a
symbol index at or above the vocabulary size fails loudly with the
`Invalid symbol` assertion error. -/
theorem claim_c8 (m : PPM) (ctx : Context) (sym : Int) :
    (sym ≤ 0 →
      advanceStep (m, ctx) sym = .ok (m, ctx) ∧
      observeStep (m, ctx) sym = .ok (m, ctx)) ∧
    (0 < sym → (m.vocabSize : Int) ≤ sym →
      advanceStep (m, ctx) sym = .error "Invalid symbol" ∧
      observeStep (m, ctx) sym = .error "Invalid symbol") := by
  constructor
  · intro hle
    constructor
    · rw [advanceStep, addSymbolToContext, if_pos hle]
      rfl
    · rw [observeStep, addSymbolAndUpdate, if_pos hle]
  · intro h1 h2
    constructor
    · rw [advanceStep, addSymbolToContext, if_neg (by omega), if_pos h2]
      rfl
    · rw [observeStep, addSymbolAndUpdate, if_neg (by omega), if_pos h2]

theorem claim_c8_witness :
    (advanceStep (PPM.init 2 1, createContext (PPM.init 2 1)) 0 =
      .ok (PPM.init 2 1, createContext (PPM.init 2 1)) ∧
     observeStep (PPM.init 2 1, createContext (PPM.init 2 1)) 0 =
      .ok (PPM.init 2 1, createContext (PPM.init 2 1))) ∧
    (advanceStep (PPM.init 2 1, createContext (PPM.init 2 1)) 5 =
      .error "Invalid symbol" ∧
     observeStep (PPM.init 2 1, createContext (PPM.init 2 1)) 5 =
      .error "Invalid symbol") :=
  ⟨(claim_c8 (PPM.init 2 1) (createContext (PPM.init 2 1)) 0).1 (by decide),
   (claim_c8 (PPM.init 2 1) (createContext (PPM.init 2 1)) 5).2 (by decide) (by decide)⟩

/-- C9: every node of a reachable trie has count at least 1 (counts start
at 1 on creation and are only incremented), a successful `observe` never
decreases the count of any node that already existed, and the non-learning
`advance` leaves the whole arena (hence all counts) unchanged. -/
theorem claim_c9 (s : PPM × Context) (hr : Reachable s) :
    (∀ (i : Nat) (nd : Node), s.1.nodes[i]? = some nd → 1 ≤ nd.count) ∧
    (∀ (sym : Int) (s' : PPM × Context), observeStep s sym = .ok s' →
      ∀ (i : Nat) (nd nd' : Node), s.1.nodes[i]? = some nd →
        s'.1.nodes[i]? = some nd' → nd.count ≤ nd'.count) ∧
    (∀ (sym : Int) (s' : PPM × Context), advanceStep s sym = .ok s' →
      s'.1.nodes = s.1.nodes) := by
  obtain ⟨m, ctx⟩ := s
  rcases reachable_inv hr with ⟨d, hw0, hc0⟩
  have hw : WFd m d := hw0
  have hc : CtxOK m d ctx := hc0
  refine ⟨fun i nd h => hw.countPos i nd h, ?_, ?_⟩
  · intro sym s' hstep i nd nd' h h'
    by_cases hle : sym ≤ 0
    · rw [observeStep, addSymbolAndUpdate, if_pos hle] at hstep
      cases hstep
      rw [h] at h'
      cases h'
      exact le_refl _
    · by_cases hge : (m.vocabSize : Int) ≤ sym
      · rw [observeStep, addSymbolAndUpdate, if_neg hle, if_pos hge] at hstep
        cases hstep
      · obtain ⟨hh, m2, r, d2, head2, order2, _, _, _, hstep', _, _, o2, _⟩ :=
          observe_core (y := sym) hw hc (by omega) (by omega)
        rw [hstep'] at hstep
        cases hstep
        exact (o2.frameOld i nd nd' h h').2.2.2
  · intro sym s' hstep
    rw [advanceStep] at hstep
    cases hres : addSymbolToContext m ctx sym with
    | error e =>
      rw [hres] at hstep
      simp only [Except.map] at hstep
      cases hstep
    | ok c =>
      rw [hres] at hstep
      simp only [Except.map] at hstep
      cases hstep
      rfl

theorem claim_c9_witness :
    Node.initial.count ≤
      ({ child := some 1, next := none, backoff := none, count := 1,
         symbol := 0 } : Node).count :=
  (claim_c9 (PPM.init 2 1, createContext (PPM.init 2 1))
      (Reachable.init 2 1 (PPM.init 2 1) rfl)).2.1
    1 ({ vocabSize := 2, maxOrder := 1,
         nodes := [{ child := some 1, next := none, backoff := none,
                     count := 1, symbol := 0 },
                   { child := none, next := none, backoff := some 0,
                     count := 1, symbol := 1 }],
         numNodes := 2, useExclusion := false }, ⟨some 1, 1⟩) rfl
    0 Node.initial _ rfl rfl

/-- C10: on a reachable state with a valid symbol, `addSymbolToNode_`
applied at the context head succeeds and returns a node that is exactly the
child of the original head found by `findChildWithSymbol`, so the internal
assertion `symbolNode == context.head_.findChildWithSymbol(symbol)` of
`addSymbolAndUpdate` never fails and the whole operation succeeds. -/
theorem claim_c10 (s : PPM × Context) (sym : Int) (hr : Reachable s)
    (h1 : 0 < sym) (h2 : sym < (s.1.vocabSize : Int)) :
    ∃ (h : Nat) (m2 : PPM) (r : Nat), s.2.head = some h ∧
      growNode s.1 h sym.toNat s.1.nodes.length = some (m2, r) ∧
      findChildWithSymbol m2.nodes h sym.toNat = some r ∧
      ∃ s', observeStep s sym = .ok s' ∧ s'.1 = m2 := by
  obtain ⟨m, ctx⟩ := s
  rcases reachable_inv hr with ⟨d, hw0, hc0⟩
  have hw : WFd m d := hw0
  have hc : CtxOK m d ctx := hc0
  have h2' : sym < (m.vocabSize : Int) := h2
  obtain ⟨hh, m2, r, d2, head2, order2, hhead, hgrow, hfound, hstep, _, _, _, _⟩ :=
    observe_core (y := sym) hw hc (by omega) (by omega)
  exact ⟨hh, m2, r, hhead, hgrow, hfound, (m2, ⟨head2, order2⟩), hstep, rfl⟩

theorem claim_c10_witness :
    ∃ (h : Nat) (m2 : PPM) (r : Nat),
      (PPM.init 2 1, createContext (PPM.init 2 1)).2.head = some h ∧
      growNode (PPM.init 2 1, createContext (PPM.init 2 1)).1 h (1 : Int).toNat
        (PPM.init 2 1, createContext (PPM.init 2 1)).1.nodes.length = some (m2, r) ∧
      findChildWithSymbol m2.nodes h (1 : Int).toNat = some r ∧
      ∃ s', observeStep (PPM.init 2 1, createContext (PPM.init 2 1)) 1 = .ok s' ∧
        s'.1 = m2 :=
  claim_c10 (PPM.init 2 1, createContext (PPM.init 2 1)) 1
    (Reachable.init 2 1 (PPM.init 2 1) rfl) (by decide) (by decide)

end PPMDemo
